import Mathlib

/-!
# commecy: verification of the normalizer `commeci.c`

The C functions of `src/commecy/commeci.c` are embedded as Lean functions:

* a `Py_UCS4*` buffer is the map from an index to the code point stored there
  (`Buf`); a store `s[i] = v` is `Buf.write`; a pointer into a buffer is the buffer
  together with an index, and `NULL` is `none`;
* `Py_UNICODE_ISALPHA` is a CPython macro (a lookup in the Unicode database) and is
  not part of the repository: every function that uses it takes it as the
  parameter `alpha`;
* `malloc` returns a buffer with arbitrary content: `normalize` and
  `dediacritic_dedoubler` take that content as the parameter `junk`;
* the `for` loops whose trip count is not fixed on entry carry a fuel argument and
  return `none` when it runs out; the entry points pass enough fuel, and the
  theorems below prove that a result is produced;
* code points and indices are natural numbers. The functions of the file hold
  lengths and indices in `int`: `normalize`, which receives a `Py_ssize_t`, converts
  it with `(int)len` (`int_of_ssize`) and gives no result when a counter of the two
  passes would leave the range of `int` (`INT_MAX`), where C leaves the behaviour
  undefined; on texts of fewer than `2^30` characters no counter does.
-/

namespace Commecy

/-! ## Buffers -/

/-- A `Py_UCS4*` buffer: the code point stored at each index. -/
abbrev Buf := Nat → Nat

/-- The store `s[i] = v`. -/
def Buf.write (s : Buf) (i v : Nat) : Buf := fun k => if k = i then v else s k

/-- The buffer `PyUnicode_AsUCS4Copy` returns: the characters of the text, then the
NUL terminator (index `l.length`). -/
def ofList (l : List Nat) : Buf := fun i => l.getD i 0

/-- The text `PyUnicode_FromKindAndData(PyUnicode_4BYTE_KIND, s, len)` builds: the
first `len` slots of `s`. -/
def toList (s : Buf) (len : Nat) : List Nat := (List.range len).map s

/-- The code points of a string literal. -/
def cp (t : String) : List Nat := t.data.map Char.toNat

/-! ## Suffix catalog (`commeci.c` lines 22-68) -/

/-- The type `struct Suffixes`: the literal `str` and the optional continuations
`opts`. The fields `len` and `n_opts` of the C struct are the lengths of the two
arrays in every initializer of the file, and are read off the lists here. -/
inductive suffix where
  | mk (str : List Nat) (opts : List suffix) : suffix

/-- Field `str`. -/
def suffix.str : suffix → List Nat
  | .mk t _ => t

/-- Field `len`. -/
def suffix.len (f : suffix) : Nat := f.str.length

/-- Field `opts` (with `n_opts` its length). -/
def suffix.opts : suffix → List suffix
  | .mk _ os => os

/-- The entry `{ U"s", 1, 0, NULL }`. -/
def suff_plural_s : suffix := .mk [115] []

/-- The array `suff_plural`. -/
def suff_plural : List suffix := [suff_plural_s]

/-- The entry `{ U"x", 1, 1, suff_plural }`. -/
def suff_nonbinary_s : suffix := .mk [120] suff_plural

/-- The array `suff_nonbinary`. -/
def suff_nonbinary : List suffix := [suff_nonbinary_s]

/-- The array `suff_plural_nonbinary`. -/
def suff_plural_nonbinary : List suffix := [suff_plural_s, suff_nonbinary_s]

/-- The array `suff_feminine`, `N_SUFF_FEMININE = 17` entries, each with the options
`xs = 2, suff_plural_nonbinary`. -/
def suff_feminine : List suffix :=
  [ .mk (cp "e") suff_plural_nonbinary,
    .mk (cp "te") suff_plural_nonbinary,
    .mk (cp "euse") suff_plural_nonbinary,
    .mk (cp "ese") suff_plural_nonbinary,
    .mk (cp "ère") suff_plural_nonbinary,
    .mk (cp "Ère") suff_plural_nonbinary,
    .mk (cp "ice") suff_plural_nonbinary,
    .mk (cp "rice") suff_plural_nonbinary,
    .mk (cp "trice") suff_plural_nonbinary,
    .mk (cp "ale") suff_plural_nonbinary,
    .mk (cp "ne") suff_plural_nonbinary,
    .mk (cp "ive") suff_plural_nonbinary,
    .mk (cp "ve") suff_plural_nonbinary,
    .mk (cp "esse") suff_plural_nonbinary,
    .mk (cp "oresse") suff_plural_nonbinary,
    .mk (cp "se") suff_plural_nonbinary,
    .mk (cp "fe") suff_plural_nonbinary ]

/-! ## Suffix matcher (`commeci.c` lines 70-147) -/

/-- The function `iswordch`: `Py_UNICODE_ISALPHA(c) || c == L'·'` (U+00B7 = 183). -/
def iswordch (alpha : Nat → Bool) (c : Nat) : Bool := alpha c || c == 183

/-- The literal loop of `match_suff` (lines 94-97): `true` when
`str[i] == suffix->str[i]` for every `i < suffix->len`, where `str = s + p`. -/
def literal_eq (s : Buf) : Nat → List Nat → Bool
  | _, [] => true
  | p, t :: ts => if s p != t then false else literal_eq s (p + 1) ts

mutual
/-- The function `match_suff(str, suffix, max, sep)` with `str = s + p`; the result
is the index in `s` the returned pointer points to, `none` for `NULL`. -/
def match_suff (alpha : Nat → Bool) (s : Buf) : suffix → Nat → Nat → Nat → Option Nat
  | .mk text opts, p, max, sep =>
    if max < text.length then none
    else if !literal_eq s p text then none
    else
      let i := text.length
      -- endptr = &str[i]
      if max - i = 0 then some (p + i)
      else
        let c := s (p + i)
        if !iswordch alpha c && c != sep then some (p + i)
        else if c = sep then
          -- i++, endptr kept
          match_opts alpha s opts (p + (i + 1)) (max - (i + 1)) sep (some (p + i))
        else
          -- endptr = NULL
          match_opts alpha s opts (p + i) (max - i) sep none
/-- The loop over `suffix->opts` that ends `match_suff` (lines 126-134): the first
option that matches at `s + p` wins, else `endptr` is returned. -/
def match_opts (alpha : Nat → Bool) (s : Buf) :
    List suffix → Nat → Nat → Nat → Option Nat → Option Nat
  | [], _, _, _, endptr => endptr
  | o :: os, p, max, sep, endptr =>
    match match_suff alpha s o p max sep with
    | some x => some x
    | none => match_opts alpha s os p max sep endptr
end

/-- The loop of `is_incl_suff` over the catalog, with the pointer `s + p` as its
first argument: `x - s` for the first entry that matches at `s + p + 1`, else 0. -/
def is_incl_suff_loop (alpha : Nat → Bool) (s : Buf) (p len sep : Nat) : List suffix → Nat
  | [] => 0
  | f :: fs =>
    match match_suff alpha s f (p + 1) len sep with
    | some x => x - p
    | none => is_incl_suff_loop alpha s p len sep fs

/-- The function `is_incl_suff(s + p, len, sep)`. -/
def is_incl_suff (alpha : Nat → Bool) (s : Buf) (p len sep : Nat) : Nat :=
  is_incl_suff_loop alpha s p len sep suff_feminine

/-! ## Repeat reducers (`commeci.c` lines 149-213) -/

/-- The loop `while (i > 0) { if (s[i - 1] != c) break; i--; }`: the value of `i`
when it ends. -/
def run_start (s : Buf) (c : Nat) : Nat → Nat
  | 0 => 0
  | i + 1 => if s i != c then i + 1 else run_start s c i

/-- The loop `for (y = i; x <= len;) { s[y] = s[x]; x++; y++; }`, by the number
`n = len + 1 - x` of iterations left: the buffer and `y` when it ends. -/
def shift_left (s : Buf) : Nat → Nat → Nat → Buf × Nat
  | 0, _, y => (s, y)
  | n + 1, x, y => shift_left (s.write y (s x)) n (x + 1) (y + 1)

/-- The loop `for (i = len; i > 1; i--)` of `reduce_repeated_letters`, from the
state `(s, len, i)`; `none` when the fuel runs out. -/
def reduce_loop (s : Buf) (len i : Nat) : Nat → Option (Buf × Nat)
  | 0 => if i > 1 then none else some (s, len)
  | fuel + 1 =>
    if i > 1 then
      let c := s i
      if c = s (i - 1) ∧ c = s (i - 2) then
        let x := i
        let i1 := run_start s c i
        let r := shift_left s (len + 1 - x) x i1
        -- len = y - 1; then i-- (the loop ends at 0 as it does at -1)
        reduce_loop r.1 (r.2 - 1) (i1 - 1) fuel
      else reduce_loop s len (i - 1) fuel
    else some (s, len)

/-- The function `reduce_repeated_letters(s, len)`: the buffer it leaves and the
length it returns. -/
def reduce_repeated_letters (s : Buf) (len : Nat) : Option (Buf × Nat) :=
  reduce_loop s len len len

/-- The loop `for (i = len; i > 1; i--)` of `reduce_repeated_letters_2`. -/
def reduce_loop_2 (s : Buf) (len i : Nat) : Nat → Option (Buf × Nat)
  | 0 => if i > 1 then none else some (s, len)
  | fuel + 1 =>
    if i > 1 then
      let c := s i
      if c = s (i - 1) then
        let x := i
        let i1 := run_start s c i
        let r := shift_left s (len + 1 - x) x i1
        reduce_loop_2 r.1 (r.2 - 1) (i1 - 1) fuel
      else reduce_loop_2 s len (i - 1) fuel
    else some (s, len)

/-- The function `reduce_repeated_letters_2(s, len)`. -/
def reduce_repeated_letters_2 (s : Buf) (len : Nat) : Option (Buf × Nat) :=
  reduce_loop_2 s len len len

/-! ## Character rewriter (`commeci.c` lines 215-298) -/

/-- The inner loop `for (int x = 0; x < sufflen; x++)` of `replace_chars`, by the
number of iterations left: `·`, `-`, `.` and `x` are skipped, any other character is
copied. The result is `(i, new, y)`. -/
def reemit (s : Buf) : Nat → Nat → Buf → Nat → Nat × Buf × Nat
  | 0, i, new, y => (i, new, y)
  | n + 1, i, new, y =>
    if s i = 183 ∨ s i = 45 ∨ s i = 46 ∨ s i = 120 then reemit s n (i + 1) new y
    else reemit s n (i + 1) (new.write y (s i)) (y + 1)

/-- The body of the loop of `replace_chars` (the `switch`), at index `i` with write
index `y`: the values of `(i, new, y)` before the `i++` of the loop. -/
def replace_body (alpha : Nat → Bool) (s : Buf) (len i : Nat) (new : Buf) (y : Nat) :
    Nat × Buf × Nat :=
  let c := s i
  -- ( ) [ ] } {
  if c = 40 ∨ c = 41 ∨ c = 91 ∨ c = 93 ∨ c = 125 ∨ c = 123 then (i, new, y)
  -- ‘ ’ ` give '
  else if c = 8216 ∨ c = 8217 ∨ c = 96 then (i, new.write y 39, y + 1)
  -- « » “ ” give "
  else if c = 171 ∨ c = 187 ∨ c = 8220 ∨ c = 8221 then (i, new.write y 34, y + 1)
  -- — – give -
  else if c = 8212 ∨ c = 8211 then (i, new.write y 45, y + 1)
  -- - . ·
  else if c = 45 ∨ c = 46 ∨ c = 183 then
    let sufflen := is_incl_suff alpha s i (len - i) c
    if sufflen ≠ 0 then
      let r := reemit s sufflen i (new.write y 183) (y + 1)
      (r.1 - 1, r.2.1, r.2.2)
    else (i, new.write y c, y + 1)
  -- œ æ
  else if c = 339 ∨ c = 230 then
    (i, (new.write y (if c = 339 then 111 else 97)).write (y + 1) 101, y + 2)
  else (i, new.write y c, y + 1)

/-- The loop `for (i = 0, y = 0; i < len; i++)` of `replace_chars`, from the state
`(i, new, y)`; `none` when the fuel runs out. -/
def replace_loop (alpha : Nat → Bool) (s : Buf) (len : Nat) :
    Nat → Nat → Buf → Nat → Option (Buf × Nat)
  | 0, i, new, y => if i < len then none else some (new, y)
  | fuel + 1, i, new, y =>
    if i < len then
      let r := replace_body alpha s len i new y
      replace_loop alpha s len fuel (r.1 + 1) r.2.1 r.2.2
    else some (new, y)

/-- The function `replace_chars(s, new, len)`: the buffer `new` it leaves and the
length it returns. -/
def replace_chars (alpha : Nat → Bool) (s new : Buf) (len : Nat) : Option (Buf × Nat) :=
  replace_loop alpha s len len 0 new 0

/-! ## Entry points (`commeci.c` lines 300-408) -/

/-- The largest value of an `int` (32 bits). -/
def INT_MAX : Nat := 2147483647

/-- The conversion `(int)len` of a `Py_ssize_t` that is not negative: the low 32 bits
of `len`, read as a signed number. -/
def int_of_ssize (n : Nat) : Int :=
  if n % 4294967296 ≤ INT_MAX then ((n % 4294967296 : Nat) : Int)
  else ((n % 4294967296 : Nat) : Int) - 4294967296

/-- The function `normalize`: `replace_chars(s, new, (int)len)` into a fresh buffer
(content `junk`), then `reduce_repeated_letters` on it, then the text of the first
`len` slots.

The loop of `replace_chars` tests `i < len` with `i = 0` first, so for `(int)len ≤ 0`
it does not run, as for the length 0 (`Int.toNat`). The counters are `int`, and the
result is `none` where one of them would pass `INT_MAX` (signed overflow, undefined
in C): the write index `y` of `replace_chars` counts the characters written; the
index `x` of the reducer runs to `len + 1` when a run is collapsed, which is the case
exactly when the reducer returns a smaller length; the input index `i` ends at
`len + 1` when a span ends on the slot `s[len]`, which only a text longer than
`(int)len` allows (there the test is a sufficient one). -/
def normalize (alpha : Nat → Bool) (junk : Buf) (input : List Nat) : Option (List Nat) :=
  let len := (int_of_ssize input.length).toNat
  if len = INT_MAX ∧ input.length ≠ INT_MAX then none
  else
    match replace_chars alpha (ofList input) junk len with
    | none => none
    | some (new, y) =>
      if INT_MAX < y then none
      else
        match reduce_repeated_letters new y with
        | none => none
        | some (new2, len2) =>
          if y = INT_MAX ∧ len2 < y then none else some (toList new2 len2)

/-- The `switch` of `dediacritic_dedoubler` (lines 372-399). -/
def fold_char (c : Nat) : Nat :=
  -- é è ê ë
  if c = 233 ∨ c = 232 ∨ c = 234 ∨ c = 235 then 101
  -- â à ä
  else if c = 226 ∨ c = 224 ∨ c = 228 then 97
  -- î ï
  else if c = 238 ∨ c = 239 then 105
  -- ô ö
  else if c = 244 ∨ c = 246 then 111
  -- ù û ü
  else if c = 249 ∨ c = 251 ∨ c = 252 then 117
  else c

/-- The loop `for (int i=0; i<=len; i++)` of `dediacritic_dedoubler`, by the number
of iterations left. -/
def fold_loop (s : Buf) : Nat → Nat → Buf → Buf
  | 0, _, new => new
  | n + 1, i, new => fold_loop s n (i + 1) (new.write i (fold_char (s i)))

/-- The function `dediacritic_dedoubler` (Python name `dediacritic`). -/
def dediacritic_dedoubler (junk : Buf) (input : List Nat) : Option (List Nat) :=
  let len := input.length
  let new := fold_loop (ofList input) (len + 1) 0 junk
  match reduce_repeated_letters_2 new len with
  | none => none
  | some (new2, len2) => some (toList new2 len2)

/-! ## Reference definitions and views used by the proofs

The reference reducer (`collapse_runs`) and the rewriting table (`rewrite_char`)
follow the wording of the specification; `reemit_out`, `body_out` and `replace_out`
are the text written by the loops of `replace_chars`, proved equal to what the
embedded loops store (`replace_loop_eq`). -/

/-- Run-length encoding: the maximal runs of a list, each as (character, length). -/
def rle : List Nat → List (Nat × Nat)
  | [] => []
  | c :: l =>
    match rle l with
    | [] => [(c, 1)]
    | (d, n) :: rs => if c = d then (d, n + 1) :: rs else (c, 1) :: (d, n) :: rs

/-- The reference repeat reducer for threshold `k`: every maximal run of `k` or more
identical characters is replaced by one instance, shorter runs are kept. -/
def collapse_runs (k : Nat) (l : List Nat) : List Nat :=
  (rle l).flatMap fun r => if k ≤ r.2 then [r.1] else List.replicate r.2 r.1

/-- No three consecutive equal characters. -/
def NoTriple : List Nat → Prop
  | a :: b :: c :: l => ¬(a = b ∧ b = c) ∧ NoTriple (b :: c :: l)
  | _ => True

/-- The `n` slots of `s` from index `a` on. -/
def seg (s : Buf) (a n : Nat) : List Nat := (List.range n).map fun k => s (a + k)

/-- No three equal characters in a row start at an index `j ≥ i - 1` of `s[0..len]`:
the part of the buffer the scan has passed holds no run of three. -/
def TailOk (s : Buf) (len i : Nat) : Prop :=
  ∀ j, i ≤ j + 1 → j + 2 ≤ len → ¬(s j = s (j + 1) ∧ s (j + 1) = s (j + 2))

/-- The stores `new[y] = l[0]`, `new[y+1] = l[1]`, ... in order. -/
def write_list (new : Buf) : Nat → List Nat → Buf
  | _, [] => new
  | y, v :: l => write_list (new.write y v) (y + 1) l

/-- The characters the inner loop of `replace_chars` copies in `n` iterations from
index `i`. -/
def reemit_out (s : Buf) : Nat → Nat → List Nat
  | 0, _ => []
  | n + 1, i =>
    if s i = 183 ∨ s i = 45 ∨ s i = 46 ∨ s i = 120 then reemit_out s n (i + 1)
    else s i :: reemit_out s n (i + 1)

/-- What one pass through the `switch` of `replace_chars` at index `i` emits, and the
value of `i` it leaves (before the `i++` of the loop). -/
def body_out (alpha : Nat → Bool) (s : Buf) (len i : Nat) : List Nat × Nat :=
  let c := s i
  if c = 40 ∨ c = 41 ∨ c = 91 ∨ c = 93 ∨ c = 125 ∨ c = 123 then ([], i)
  else if c = 8216 ∨ c = 8217 ∨ c = 96 then ([39], i)
  else if c = 171 ∨ c = 187 ∨ c = 8220 ∨ c = 8221 then ([34], i)
  else if c = 8212 ∨ c = 8211 then ([45], i)
  else if c = 45 ∨ c = 46 ∨ c = 183 then
    let sufflen := is_incl_suff alpha s i (len - i) c
    if sufflen ≠ 0 then (183 :: reemit_out s sufflen i, i + sufflen - 1)
    else ([c], i)
  else if c = 339 ∨ c = 230 then ([if c = 339 then 111 else 97, 101], i)
  else ([c], i)

/-- The text `replace_chars` writes from index `i` of the input on; `none` when the
fuel runs out. -/
def replace_out (alpha : Nat → Bool) (s : Buf) (len : Nat) : Nat → Nat → Option (List Nat)
  | 0, i => if i < len then none else some []
  | fuel + 1, i =>
    if i < len then
      (replace_out alpha s len fuel ((body_out alpha s len i).2 + 1)).map
        ((body_out alpha s len i).1 ++ ·)
    else some []

/-- An instance of `alpha` for the examples: the letters of ASCII and Latin-1
(`a-z`, `A-Z`, `ª`, `µ`, `º`, `À-ÿ` without `×` and `÷`) and `œ`, `Œ`. -/
def latin_alpha (c : Nat) : Bool :=
  (97 ≤ c && c ≤ 122) || (65 ≤ c && c ≤ 90) || c == 170 || c == 181 || c == 186
    || (192 ≤ c && c ≤ 255 && c != 215 && c != 247) || c == 338 || c == 339

/-- What the theorems on concrete words use of `Py_UNICODE_ISALPHA`: it holds of the
lowercase ASCII letters, of `è` and of `È`, and fails for NUL, `-` and `.`. -/
def AlphaBasic (alpha : Nat → Bool) : Prop :=
  (∀ c, 97 ≤ c → c ≤ 122 → alpha c = true) ∧ alpha 232 = true ∧ alpha 200 = true
    ∧ alpha 0 = false ∧ alpha 45 = false ∧ alpha 46 = false

/-- The characters on which `AlphaBasic` fixes `iswordch`. -/
def basic_char (c : Nat) : Bool :=
  (97 ≤ c && c ≤ 122) || c == 232 || c == 200 || c == 0 || c == 45 || c == 46 || c == 183

/-- The last two characters of a text differ (or it has fewer than two). -/
def ends_distinct (l : List Nat) : Bool :=
  match l.reverse with
  | b :: a :: _ => a != b
  | _ => true

/-- The check that settles `normalize` on a word of basic characters: the rewriter,
run with `latin_alpha`, gives `out`, whose last two characters differ and which the
collapse of runs of three turns into `expected`; both lengths are below `INT_MAX`. -/
def word_check (input out expected : List Nat) : Bool :=
  input.all basic_char
    && (replace_out latin_alpha (ofList input) input.length input.length 0 == some out)
    && ends_distinct out
    && (collapse_runs 3 out == expected)
    && decide (input.length < INT_MAX) && decide (out.length < INT_MAX)

/-- The table of the character rewriter, as the specification words it: brackets give
nothing, curly and back quotes give `'`, guillemets and curly double quotes give `"`,
the em and en dash give `-`, `œ` gives `oe`, `æ` gives `ae`, and every other
character gives itself. -/
def rewrite_char (c : Nat) : List Nat :=
  if c ∈ [40, 41, 91, 93, 123, 125] then []
  else if c ∈ [8216, 8217, 96] then [39]
  else if c ∈ [171, 187, 8220, 8221] then [34]
  else if c ∈ [8212, 8211] then [45]
  else if c = 339 then [111, 101]
  else if c = 230 then [97, 101]
  else [c]

/-- The check that settles `normalize` on a word without separators. -/
def plain_check (input expected : List Nat) : Bool :=
  input.all (fun c => c != 45 && c != 46 && c != 183)
    && ends_distinct (input.flatMap rewrite_char)
    && (collapse_runs 3 (input.flatMap rewrite_char) == expected)
    && decide (input.length < INT_MAX)
    && decide ((input.flatMap rewrite_char).length < INT_MAX)

mutual
/-- No NUL in the literal of a pattern or of its continuations. -/
def suffix.nonzero : suffix → Bool
  | .mk text opts => text.all (fun c => c != 0) && nonzero_all opts
/-- No NUL in the patterns of a list. -/
def nonzero_all : List suffix → Bool
  | [] => true
  | o :: os => o.nonzero && nonzero_all os
end

/-- The text `replace_chars` writes for the text `input`, in a fresh buffer `new`. -/
def replace_text (alpha : Nat → Bool) (new : Buf) (input : List Nat) : Option (List Nat) :=
  (replace_chars alpha (ofList input) new input.length).map (fun r => toList r.1 r.2)

/-- The check that settles `replace_chars` on a word of basic characters. -/
def rewrite_check (input out : List Nat) : Bool :=
  input.all basic_char
    && (replace_out latin_alpha (ofList input) input.length input.length 0 == some out)

mutual
/-- The length of the longest chain of patterns that starts with this one. -/
def suffix.depth : suffix → Nat
  | .mk _ opts => depth_all opts + 1
/-- The longest chain that starts in a list of patterns. -/
def depth_all : List suffix → Nat
  | [] => 0
  | o :: os => max o.depth (depth_all os)
end

/-- The loop over the options of `match_suff`, with the recursive call as the
argument `g`: `none` when a call runs out of its budget of nested calls. -/
def first_within (g : suffix → Option (Option Nat)) :
    List suffix → Option Nat → Option (Option Nat)
  | [], endptr => some endptr
  | o :: os, endptr =>
    match g o with
    | none => none
    | some (some x) => some (some x)
    | some none => first_within g os endptr

/-- The function `match_suff` with a budget of nested calls (the first argument): the
same code, `none` when the budget runs out, `some r` when the call returns `r`
(`r = none` for `NULL`). -/
def match_suff_within (alpha : Nat → Bool) (s : Buf) :
    Nat → suffix → Nat → Nat → Nat → Option (Option Nat)
  | 0, _, _, _, _ => none
  | d + 1, .mk text opts, p, max, sep =>
    if max < text.length then some none
    else if !literal_eq s p text then some none
    else
      let i := text.length
      if max - i = 0 then some (some (p + i))
      else
        let c := s (p + i)
        if !iswordch alpha c && c != sep then some (some (p + i))
        else if c = sep then
          first_within (fun o => match_suff_within alpha s d o (p + (i + 1)) (max - (i + 1)) sep)
            opts (some (p + i))
        else
          first_within (fun o => match_suff_within alpha s d o (p + i) (max - i) sep) opts none

/-- Two literals agree on the positions they both have (one starts the other). -/
def agree : List Nat → List Nat → Bool
  | [], _ => true
  | _, [] => true
  | a :: l1, b :: l2 => a == b && agree l1 l2

/-- The characters the rewriter replaces or drops:
`( ) [ ] { }`, `‘ ’` and the back quote, `« » “ ”`, `— –`, `œ æ`. -/
def rewritten (c : Nat) : Bool :=
  c ∈ [40, 41, 91, 93, 123, 125, 8216, 8217, 96, 171, 187, 8220, 8221, 8212, 8211, 339, 230]

/-- The letters of the catalog that the inner loop of `replace_chars` copies: those of
the feminine literals and the plural `s` (the marker `x` is skipped). -/
def catalog_letter (c : Nat) : Bool := c ∈ cp "etusèrÈicalnvof"

/-- What a matched span is made of: catalog letters, the marker `x`, separators. -/
def span_char (c : Nat) : Bool :=
  catalog_letter c || c == 120 || c == 45 || c == 46 || c == 183

mutual
/-- Every character of the literal of a pattern and of its continuations passes `q`. -/
def suffix.all_chars (q : Nat → Bool) : suffix → Bool
  | .mk text opts => text.all q && all_chars_list q opts
/-- Every character of the patterns of a list passes `q`. -/
def all_chars_list (q : Nat → Bool) : List suffix → Bool
  | [] => true
  | o :: os => o.all_chars q && all_chars_list q os
end

/-- A letter of a pattern, as the rewriter sees it: not NUL, not a separator, and not
one of the characters the rewriter replaces or drops. -/
def plain_letter (c : Nat) : Bool :=
  c != 0 && c != 45 && c != 46 && c != 183 && !rewritten c

/-- Two middle dots before a `-` or `.` that starts a suffix, at index `i`: the
rewriter writes three middle dots for them, which the reducer collapses to one. -/
def dots_before_span (alpha : Nat → Bool) (s : Buf) (len i : Nat) : Bool :=
  s i == 183 && s (i + 1) == 183 && (s (i + 2) == 45 || s (i + 2) == 46)
    && is_incl_suff alpha s (i + 2) (len - (i + 2)) (s (i + 2)) != 0

/-- What one pass through the `switch` of `replace_chars` emits and the index it
leaves, as `body_out`; with `c` set, the collapse of the reducer is folded in: two
middle dots before a span are dropped, and the pass goes through the span. -/
def chunk_out (alpha : Nat → Bool) (cl : Bool) (s : Buf) (len i : Nat) : List Nat × Nat :=
  if (cl && dots_before_span alpha s len i) = true then
    (183 :: reemit_out s (is_incl_suff alpha s (i + 2) (len - (i + 2)) (s (i + 2))) (i + 2),
      i + 2 + is_incl_suff alpha s (i + 2) (len - (i + 2)) (s (i + 2)) - 1)
  else body_out alpha s len i

/-- The text written from index `i` of the input on, chunk by chunk (`chunk_out`):
with `c = false` the text `replace_chars` writes (`replace_out`), with `c = true` the
text the reducer makes of it when the input has no run of three. -/
def scan_out (alpha : Nat → Bool) (cl : Bool) (s : Buf) (len : Nat) :
    Nat → Nat → Option (List Nat)
  | 0, i => if i < len then none else some []
  | fuel + 1, i =>
    if i < len then
      (scan_out alpha cl s len fuel ((chunk_out alpha cl s len i).2 + 1)).map
        ((chunk_out alpha cl s len i).1 ++ ·)
    else some []

/-- The buffer `t` holds from index `j` on, and up to its end `tlen`, the text
written for the input `s[i..len)` (`scan_out`). -/
def rewrites_from (alpha : Nat → Bool) (cl : Bool) (s : Buf) (len : Nat) (t : Buf)
    (tlen i j : Nat) : Prop :=
  ∃ fuel out, len - i ≤ fuel ∧ scan_out alpha cl s len fuel i = some out
    ∧ (∀ m, t (j + m) = out.getD m 0) ∧ j + out.length = tlen

/-! ## Lemmas -/

theorem rle_cons_head (c : Nat) (l : List Nat) :
    ∃ n rs, rle (c :: l) = (c, n + 1) :: rs := by
  simp only [rle]
  cases h : rle l with
  | nil => exact ⟨0, [], rfl⟩
  | cons r rs =>
    obtain ⟨d, n⟩ := r
    by_cases hcd : c = d
    · subst hcd; exact ⟨n, rs, by simp⟩
    · exact ⟨0, (d, n) :: rs, by simp [hcd]⟩

theorem rle_single_cons (c : Nat) (l : List Nat) (h : l.head? ≠ some c) :
    rle (c :: l) = (c, 1) :: rle l := by
  cases l with
  | nil => simp [rle]
  | cons d l =>
    obtain ⟨n, rs, hr⟩ := rle_cons_head d l
    have hcd : c ≠ d := by
      intro e; apply h; simp [e]
    rw [rle, hr]
    simp [hcd]

theorem rle_append (A B : List Nat)
    (h : ∀ a b, A.getLast? = some a → B.head? = some b → a ≠ b) :
    rle (A ++ B) = rle A ++ rle B := by
  induction A with
  | nil => simp [rle]
  | cons a A ih =>
    cases A with
    | nil =>
      have hb : B.head? ≠ some a := by
        intro e; exact h a a (by simp) e rfl
      simpa [rle] using rle_single_cons a B hb
    | cons a2 A =>
      have ih2 := ih (by
        intro x y hx hy
        exact h x y (by simpa [List.getLast?_cons_cons] using hx) hy)
      obtain ⟨n, rs, hr⟩ := rle_cons_head a2 A
      have e1 : rle (a :: a2 :: A) = (if a = a2 then (a2, n + 1 + 1) :: rs else (a, 1) :: (a2, n + 1) :: rs) := by
        rw [rle, hr]
      have e2 : rle (a :: (a2 :: A ++ B)) = (if a = a2 then (a2, n + 1 + 1) :: (rs ++ rle B) else (a, 1) :: (a2, n + 1) :: (rs ++ rle B)) := by
        rw [rle, ih2, hr]; rfl
      show rle (a :: (a2 :: A ++ B)) = rle (a :: a2 :: A) ++ rle B
      rw [e1, e2]
      split <;> simp

theorem rle_replicate (c n : Nat) : rle (List.replicate (n + 1) c) = [(c, n + 1)] := by
  induction n with
  | zero => simp [rle]
  | succ n ih =>
    rw [List.replicate_succ, rle, ih]; simp

theorem collapse_runs_append (k : Nat) (A B : List Nat)
    (h : ∀ a b, A.getLast? = some a → B.head? = some b → a ≠ b) :
    collapse_runs k (A ++ B) = collapse_runs k A ++ collapse_runs k B := by
  simp [collapse_runs, rle_append A B h, List.flatMap_append]

theorem collapse_runs_replicate (k c n : Nat) :
    collapse_runs k (List.replicate (n + 1) c)
      = if k ≤ n + 1 then [c] else List.replicate (n + 1) c := by
  simp [collapse_runs, rle_replicate]

theorem getLast?_replicate_succ (c n : Nat) :
    (List.replicate (n + 1) c).getLast? = some c := by
  rw [List.getLast?_eq_getElem?]
  simp

/-- Collapsing a run of three or more that is maximal on both sides. -/
theorem collapse_runs_run (A B : List Nat) (c m : Nat) (hm : 3 ≤ m)
    (hA : A.getLast? ≠ some c) (hB : B.head? ≠ some c) :
    collapse_runs 3 (A ++ (List.replicate m c ++ B)) = collapse_runs 3 (A ++ c :: B) := by
  obtain ⟨n, rfl⟩ : ∃ n, m = n + 1 := ⟨m - 1, by omega⟩
  have h1 : ∀ a b, A.getLast? = some a → (List.replicate (n + 1) c ++ B).head? = some b → a ≠ b := by
    intro a b ha hb
    have : b = c := by simpa [List.replicate_succ] using hb.symm
    subst this
    intro e; subst e; exact hA ha
  have h2 : ∀ a b, (List.replicate (n + 1) c).getLast? = some a → B.head? = some b → a ≠ b := by
    intro a b ha hb
    rw [getLast?_replicate_succ] at ha
    have : a = c := by simpa using ha.symm
    subst this
    intro e; subst e; exact hB hb
  have h3 : ∀ a b, A.getLast? = some a → (c :: B).head? = some b → a ≠ b := by
    intro a b ha hb
    have : b = c := by simpa using hb.symm
    subst this
    intro e; subst e; exact hA ha
  have h4 : ∀ a b, [c].getLast? = some a → B.head? = some b → a ≠ b := by
    intro a b ha hb
    have : a = c := by simpa using ha.symm
    subst this
    intro e; subst e; exact hB hb
  rw [collapse_runs_append 3 _ _ h1, collapse_runs_append 3 _ _ h2, collapse_runs_replicate,
    collapse_runs_append 3 _ _ h3]
  have : c :: B = [c] ++ B := rfl
  rw [this, collapse_runs_append 3 _ _ h4]
  have h5 := collapse_runs_replicate 3 c 0
  simp only [List.replicate_one, zero_add] at h5
  rw [h5]
  have : 3 ≤ n + 1 := hm
  simp [this]

theorem rle_decode (l : List Nat) :
    (rle l).flatMap (fun r => List.replicate r.2 r.1) = l := by
  induction l with
  | nil => simp [rle]
  | cons c l ih =>
    rw [rle]
    cases h : rle l with
    | nil =>
      rw [h] at ih
      simp at ih
      simp [← ih]
    | cons r rs =>
      obtain ⟨d, n⟩ := r
      rw [h] at ih
      by_cases hcd : c = d
      · subst hcd
        simp only [if_true, List.flatMap_cons] at ih ⊢
        rw [← ih, List.replicate_succ]; simp
      · simp only [hcd, if_false, List.flatMap_cons] at ih ⊢
        rw [← ih]; simp

theorem NoTriple.tail {a : Nat} {l : List Nat} (h : NoTriple (a :: l)) : NoTriple l := by
  match l, h with
  | [], _ => trivial
  | [_], _ => trivial
  | _ :: _ :: _, h => exact h.2

theorem rle_count_le_two (l : List Nat) (h : NoTriple l) : ∀ r ∈ rle l, r.2 ≤ 2 := by
  induction l with
  | nil => simp [rle]
  | cons c l ih =>
    have ih := ih h.tail
    have hd := rle_decode l
    rw [rle]
    cases hr : rle l with
    | nil => simp
    | cons r rs =>
      obtain ⟨d, n⟩ := r
      rw [hr] at ih hd
      by_cases hcd : c = d
      · subst hcd
        simp only [if_true]
        intro r hmem
        rcases List.mem_cons.1 hmem with e | hmem
        · subst e
          have hn : n ≤ 2 := ih (c, n) (List.mem_cons_self _ _)
          show n + 1 ≤ 2
          by_contra hcon
          have hn2 : n = 2 := by omega
          subst hn2
          simp only [List.flatMap_cons] at hd
          rw [← hd] at h
          simp [List.replicate_succ, NoTriple] at h
        · exact ih r (List.mem_cons_of_mem _ hmem)
      · simp only [hcd, if_false]
        intro r hmem
        rcases List.mem_cons.1 hmem with e | hmem
        · subst e; simp
        · exact ih r hmem

theorem collapse_runs_of_noTriple (l : List Nat) (h : NoTriple l) : collapse_runs 3 l = l := by
  have hc := rle_count_le_two l h
  have hd := rle_decode l
  unfold collapse_runs
  conv_rhs => rw [← hd]
  apply List.flatMap_congr
  intro r hr
  have := hc r hr
  have h3 : ¬ 3 ≤ r.2 := by omega
  simp [h3]

/-! ### Segments of a buffer -/

theorem toList_eq_seg (s : Buf) (n : Nat) : toList s n = seg s 0 n := by
  simp [toList, seg]

@[simp] theorem seg_length (s : Buf) (a n : Nat) : (seg s a n).length = n := by
  simp [seg]

theorem seg_zero (s : Buf) (a : Nat) : seg s a 0 = [] := by simp [seg]

theorem seg_succ (s : Buf) (a n : Nat) : seg s a (n + 1) = s a :: seg s (a + 1) n := by
  simp only [seg, List.range_succ_eq_map, List.map_cons, List.map_map, Nat.add_zero]
  congr 1
  apply List.map_congr_left
  intro k _
  simp [Nat.add_assoc, Nat.add_comm 1 k]

theorem seg_append (s : Buf) (a n m : Nat) :
    seg s a (n + m) = seg s a n ++ seg s (a + n) m := by
  induction n generalizing a with
  | zero => simp [seg_zero]
  | succ n ih =>
    rw [Nat.add_right_comm, seg_succ, seg_succ, ih (a + 1)]
    simp [Nat.add_assoc, Nat.add_comm 1 n]

theorem seg_congr (s t : Buf) (a b n : Nat) (h : ∀ k, k < n → s (a + k) = t (b + k)) :
    seg s a n = seg t b n := by
  unfold seg
  apply List.map_congr_left
  intro k hk
  exact h k (List.mem_range.1 hk)

theorem seg_const (s : Buf) (a n c : Nat) (h : ∀ k, k < n → s (a + k) = c) :
    seg s a n = List.replicate n c := by
  induction n generalizing a with
  | zero => simp [seg_zero]
  | succ n ih =>
    have h0 : s a = c := by simpa using h 0 (by omega)
    rw [seg_succ, List.replicate_succ, h0, ih (a + 1)]
    intro k hk
    have := h (k + 1) (by omega)
    rwa [Nat.add_assoc, Nat.add_comm 1 k]

theorem seg_head? (s : Buf) (a n : Nat) (hn : 0 < n) : (seg s a n).head? = some (s a) := by
  obtain ⟨m, rfl⟩ : ∃ m, n = m + 1 := ⟨n - 1, by omega⟩
  simp [seg_succ]

theorem seg_getLast? (s : Buf) (a n : Nat) : (seg s a (n + 1)).getLast? = some (s (a + n)) := by
  rw [seg_append s a n 1]
  simp [seg_succ, seg_zero]

theorem seg_noTriple (s : Buf) (a n : Nat)
    (h : ∀ j, a ≤ j → j + 2 < a + n → ¬(s j = s (j + 1) ∧ s (j + 1) = s (j + 2))) :
    NoTriple (seg s a n) := by
  induction n generalizing a with
  | zero => simp [seg_zero, NoTriple]
  | succ n ih =>
    have ih' := ih (a + 1) (fun j hj hj2 => h j (by omega) (by omega))
    match n, ih' with
    | 0, _ => simp [seg_succ, seg_zero, NoTriple]
    | 1, _ => simp [seg_succ, seg_zero, NoTriple]
    | n + 2, ih' =>
      rw [seg_succ, seg_succ, seg_succ] at *
      refine ⟨?_, ih'⟩
      have := h a (le_refl _) (by omega)
      simpa [Nat.add_assoc] using this

/-! ### The loops of the reducers -/

theorem run_start_le (s : Buf) (c i : Nat) : run_start s c i ≤ i := by
  induction i with
  | zero => simp [run_start]
  | succ i ih =>
    rw [run_start]
    split
    · exact le_refl _
    · omega

theorem run_start_run (s : Buf) (c i : Nat) :
    ∀ j, run_start s c i ≤ j → j < i → s j = c := by
  induction i with
  | zero => intro j _ hj; omega
  | succ i ih =>
    intro j h1 h2
    rw [run_start] at h1
    split at h1
    · omega
    · rename_i hc
      have hc : s i = c := by simpa using hc
      by_cases hji : j = i
      · subst hji; exact hc
      · exact ih j h1 (by omega)

theorem run_start_stop (s : Buf) (c i : Nat) (h : 0 < run_start s c i) :
    s (run_start s c i - 1) ≠ c := by
  induction i with
  | zero => simp [run_start] at h
  | succ i ih =>
    rw [run_start] at h ⊢
    split
    · rename_i hc
      simpa using hc
    · rename_i hc
      rw [if_neg hc] at h
      exact ih h

theorem run_start_le_of_eq (s : Buf) (c i : Nat) (h : s i = c) :
    run_start s c (i + 1) ≤ i := by
  rw [run_start]
  simp [h]
  exact run_start_le s c i

theorem shift_left_snd (s : Buf) (n x y : Nat) : (shift_left s n x y).2 = y + n := by
  induction n generalizing s x y with
  | zero => simp [shift_left]
  | succ n ih => rw [shift_left, ih]; omega

theorem shift_left_fst (s : Buf) (n x y : Nat) (hyx : y ≤ x) (k : Nat) :
    (shift_left s n x y).1 k = if y ≤ k ∧ k < y + n then s (x + (k - y)) else s k := by
  induction n generalizing s x y with
  | zero =>
    have : ¬ (y ≤ k ∧ k < y) := by omega
    simp [shift_left, this]
  | succ n ih =>
    rw [shift_left, ih _ _ _ (by omega)]
    by_cases h1 : y + 1 ≤ k ∧ k < y + 1 + n
    · have h2 : y ≤ k ∧ k < y + (n + 1) := by omega
      rw [if_pos h1, if_pos h2]
      have : x + 1 + (k - (y + 1)) ≠ y := by omega
      simp only [Buf.write, this, if_false]
      congr 1; omega
    · rw [if_neg h1]
      by_cases h3 : k = y
      · subst h3
        simp [Buf.write]
      · have h2 : ¬ (y ≤ k ∧ k < y + (n + 1)) := by omega
        rw [if_neg h2]
        simp [Buf.write, h3]

theorem run_start_le_sub_two (s : Buf) (c i : Nat) (h1 : s (i + 1) = c) (h2 : s i = c) :
    run_start s c (i + 2) ≤ i := by
  rw [run_start]
  simp only [h1, bne_self_eq_false, Bool.false_eq_true, if_false]
  exact run_start_le_of_eq s c i h2

theorem TailOk.noTriple {s : Buf} {len i : Nat} (h : TailOk s len i) (hi : i ≤ 1) :
    NoTriple (seg s 0 (len + 1)) :=
  seg_noTriple s 0 (len + 1) (fun j _ hj => h j (by omega) (by omega))

/-- One collapse of the reducers at the level of lists: the buffer after the copy
loop that moves `s[x..len]` to index `i0`. -/
theorem seg_shift_left (s : Buf) (len x i0 : Nat) (hx : x ≤ len) (hi0 : i0 ≤ x) :
    seg (shift_left s (len + 1 - x) x i0).1 0 (i0 + ((len - x) + 1))
      = seg s 0 i0 ++ s x :: seg s (x + 1) (len - x) := by
  rw [seg_append, ← seg_succ]
  congr 1
  · apply seg_congr
    intro k hk
    rw [shift_left_fst _ _ _ _ hi0]
    have : ¬ (i0 ≤ 0 + k ∧ 0 + k < i0 + (len + 1 - x)) := by omega
    rw [if_neg this]
  · apply seg_congr
    intro k hk
    rw [shift_left_fst _ _ _ _ hi0]
    have : i0 ≤ 0 + i0 + k ∧ 0 + i0 + k < i0 + (len + 1 - x) := by omega
    rw [if_pos this]
    congr 1; omega

theorem seg_run_split (s : Buf) (len x i0 : Nat) (hx : x ≤ len) (hi0 : i0 ≤ x)
    (hrun : ∀ j, i0 ≤ j → j ≤ x → s j = s x) :
    seg s 0 (len + 1)
      = seg s 0 i0 ++ (List.replicate (x + 1 - i0) (s x) ++ seg s (x + 1) (len - x)) := by
  have e : len + 1 = i0 + ((x + 1 - i0) + (len - x)) := by omega
  rw [e, seg_append, seg_append]
  congr 2
  · apply seg_const
    intro k hk
    exact hrun _ (by omega) (by omega)
  · congr 1; omega

/-- The scan invariant survives a collapse: after the run `s[i0..x]` is replaced by
one character, no run of three starts at `i0 - 2` or later. -/
theorem TailOk_shift_left (s : Buf) (len x i0 : Nat) (hx : x ≤ len) (hi0 : i0 ≤ x)
    (hT : TailOk s len x) (hstop : 0 < i0 → s (i0 - 1) ≠ s x) :
    TailOk (shift_left s (len + 1 - x) x i0).1 (i0 + (len - x)) (i0 - 1) := by
  have hfst := shift_left_fst s (len + 1 - x) x i0 (by omega)
  generalize (shift_left s (len + 1 - x) x i0).1 = s1 at hfst
  intro j hj1 hj2
  rw [hfst j, hfst (j + 1), hfst (j + 2)]
  by_cases hA : j + 2 = i0
  · have c1 : ¬ (i0 ≤ j ∧ j < i0 + (len + 1 - x)) := by omega
    have c2 : ¬ (i0 ≤ j + 1 ∧ j + 1 < i0 + (len + 1 - x)) := by omega
    have c3 : (i0 ≤ j + 2 ∧ j + 2 < i0 + (len + 1 - x)) := by omega
    rw [if_neg c1, if_neg c2, if_pos c3]
    have e : x + (j + 2 - i0) = x := by omega
    rw [e]
    have := hstop (by omega)
    have e2 : i0 - 1 = j + 1 := by omega
    rw [e2] at this
    intro h; exact this h.2
  · by_cases hB : j + 1 = i0
    · have c1 : ¬ (i0 ≤ j ∧ j < i0 + (len + 1 - x)) := by omega
      have c2 : (i0 ≤ j + 1 ∧ j + 1 < i0 + (len + 1 - x)) := by omega
      rw [if_neg c1, if_pos c2]
      have e : x + (j + 1 - i0) = x := by omega
      rw [e]
      have := hstop (by omega)
      have e2 : i0 - 1 = j := by omega
      rw [e2] at this
      intro h; exact this h.1
    · have hj : i0 ≤ j := by omega
      have c1 : (i0 ≤ j ∧ j < i0 + (len + 1 - x)) := by omega
      have c2 : (i0 ≤ j + 1 ∧ j + 1 < i0 + (len + 1 - x)) := by omega
      have c3 : (i0 ≤ j + 2 ∧ j + 2 < i0 + (len + 1 - x)) := by omega
      rw [if_pos c1, if_pos c2, if_pos c3]
      have := hT (x + (j - i0)) (by omega) (by omega)
      have e1 : x + (j - i0) + 1 = x + (j + 1 - i0) := by omega
      have e2 : x + (j - i0) + 2 = x + (j + 2 - i0) := by omega
      rw [e1, e2] at this
      exact this

theorem reduce_loop_spec (fuel : Nat) : ∀ (s : Buf) (len i : Nat),
    i ≤ fuel → i ≤ len → TailOk s len i →
    ∃ s2 len2, reduce_loop s len i fuel = some (s2, len2) ∧ len2 ≤ len ∧
      seg s2 0 (len2 + 1) = collapse_runs 3 (seg s 0 (len + 1)) ∧
      NoTriple (seg s2 0 (len2 + 1)) := by
  induction fuel with
  | zero =>
    intro s len i hf _ hT
    have hi : i = 0 := by omega
    subst hi
    have hN := hT.noTriple (by omega)
    exact ⟨s, len, by simp [reduce_loop], le_refl _, (collapse_runs_of_noTriple _ hN).symm, hN⟩
  | succ fuel ih =>
    intro s len i hf hl hT
    by_cases hi : i > 1
    · obtain ⟨i, rfl⟩ : ∃ m, i = m + 2 := ⟨i - 2, by omega⟩
      by_cases htr : s (i + 2) = s (i + 1) ∧ s (i + 2) = s i
      · -- a run of three ends at i + 2
        have hle : run_start s (s (i + 2)) (i + 2) ≤ i :=
          run_start_le_sub_two s _ i htr.1.symm htr.2.symm
        have hrun := run_start_run s (s (i + 2)) (i + 2)
        have hstop := run_start_stop s (s (i + 2)) (i + 2)
        have hred : reduce_loop s len (i + 2) (fuel + 1)
            = reduce_loop (shift_left s (len + 1 - (i + 2)) (i + 2) (run_start s (s (i + 2)) (i + 2))).1
                ((shift_left s (len + 1 - (i + 2)) (i + 2) (run_start s (s (i + 2)) (i + 2))).2 - 1)
                (run_start s (s (i + 2)) (i + 2) - 1) fuel := by
          rw [reduce_loop]
          simp only [hi, if_true]
          have : s (i + 2) = s (i + 2 - 1) ∧ s (i + 2) = s (i + 2 - 2) := htr
          rw [if_pos this]
        generalize run_start s (s (i + 2)) (i + 2) = i0 at hle hrun hstop hred
        have hlen : (shift_left s (len + 1 - (i + 2)) (i + 2) i0).2 - 1 = i0 + (len - (i + 2)) := by
          rw [shift_left_snd]; omega
        rw [hlen] at hred
        have hseg := seg_shift_left s len (i + 2) i0 hl (by omega)
        have hT1 := TailOk_shift_left s len (i + 2) i0 hl (by omega) hT hstop
        generalize (shift_left s (len + 1 - (i + 2)) (i + 2) i0).1 = s1 at hred hseg hT1
        obtain ⟨s2, len2, h1, h2, h3, h4⟩ := ih s1 (i0 + (len - (i + 2))) (i0 - 1)
          (by omega) (by omega) hT1
        refine ⟨s2, len2, by rw [hred, h1], by omega, ?_, h4⟩
        rw [h3, Nat.add_assoc, hseg, seg_run_split s len (i + 2) i0 hl (by omega)
          (fun j h1 h2 => by
            by_cases e : j = i + 2
            · rw [e]
            · exact hrun j h1 (by omega))]
        symm
        apply collapse_runs_run
        · omega
        · cases i0 with
          | zero => simp [seg_zero]
          | succ m =>
            rw [seg_getLast?]
            have := hstop (by omega)
            simpa using this
        · by_cases hlast : len - (i + 2) = 0
          · rw [hlast]; simp [seg_zero]
          · rw [seg_head? _ _ _ (by omega)]
            intro e
            have e : s (i + 2 + 1) = s (i + 2) := by simpa using e
            exact hT (i + 1) (by omega) (by omega) ⟨htr.1.symm, e.symm⟩
      · have hred : reduce_loop s len (i + 2) (fuel + 1) = reduce_loop s len (i + 1) fuel := by
          rw [reduce_loop]
          simp only [hi, if_true]
          have : ¬ (s (i + 2) = s (i + 2 - 1) ∧ s (i + 2) = s (i + 2 - 2)) := htr
          rw [if_neg this]
          rfl
        have hT1 : TailOk s len (i + 1) := by
          intro j hj1 hj2
          by_cases e : j = i
          · subst e
            intro h
            exact htr ⟨h.2.symm, by rw [← h.2, h.1]⟩
          · exact hT j (by omega) hj2
        obtain ⟨s2, len2, h1, h2, h3, h4⟩ := ih s len (i + 1) (by omega) (by omega) hT1
        exact ⟨s2, len2, by rw [hred, h1], h2, h3, h4⟩
    · have hN := hT.noTriple (by omega)
      refine ⟨s, len, ?_, le_refl _, (collapse_runs_of_noTriple _ hN).symm, hN⟩
      rw [reduce_loop]
      simp [hi]

/-- The reducer for runs of three is total, never lengthens the text, and leaves, in
the slots `0..len` (the slot at index `len` included), the collapse of what these
slots held. -/
theorem reduce_repeated_letters_spec (s : Buf) (len : Nat) :
    ∃ s2 len2, reduce_repeated_letters s len = some (s2, len2) ∧ len2 ≤ len ∧
      seg s2 0 (len2 + 1) = collapse_runs 3 (seg s 0 (len + 1)) ∧
      NoTriple (seg s2 0 (len2 + 1)) :=
  reduce_loop_spec len s len len (le_refl _) (le_refl _) (fun j h1 h2 => by omega)

theorem collapse_runs_singleton (k t : Nat) : collapse_runs k [t] = [t] := by
  have := collapse_runs_replicate k t 0
  simp only [List.replicate_one, zero_add] at this
  rw [this]
  split <;> rfl

theorem seg_snoc (s : Buf) (n : Nat) : seg s 0 (n + 1) = seg s 0 n ++ [s n] := by
  rw [seg_append]; simp [seg_succ, seg_zero]

theorem collapse_runs_snoc (k : Nat) (l : List Nat) (t : Nat)
    (h : ∀ c, l.getLast? = some c → c ≠ t) :
    collapse_runs k (l ++ [t]) = collapse_runs k l ++ [t] := by
  rw [collapse_runs_append k l [t] (fun a b ha hb => by
    have : b = t := by simpa using hb.symm
    subst this; exact h a ha), collapse_runs_singleton]

/-- When the last two characters differ, the slot after the text cannot join a run of
three: collapsing with that slot and dropping it is collapsing the text. -/
theorem collapse_runs_snoc_of_ends (l : List Nat) (t : Nat)
    (h : ∀ a b A, l = A ++ [a, b] → a ≠ b) :
    collapse_runs 3 (l ++ [t]) = collapse_runs 3 l ++ [t] := by
  rcases List.eq_nil_or_concat l with rfl | ⟨l1, b, rfl⟩
  · simp [collapse_runs_singleton, collapse_runs, rle]
  · rcases List.eq_nil_or_concat l1 with rfl | ⟨A, a, rfl⟩ <;>
      simp only [List.concat_eq_append, List.nil_append] at h ⊢
    · have hN : NoTriple ([b] ++ [t]) := by simp [NoTriple]
      rw [collapse_runs_of_noTriple _ hN]
      simp [collapse_runs_singleton]
    · have hab : a ≠ b := h a b A (by simp)
      have e1 : A ++ [a] ++ [b] ++ [t] = (A ++ [a]) ++ [b, t] := by simp
      have hN : NoTriple [b, t] := by simp [NoTriple]
      rw [e1, collapse_runs_append 3 (A ++ [a]) [b, t] (fun x y hx hy => by
        have hx : x = a := by simpa using hx.symm
        have hy : y = b := by simpa using hy.symm
        subst hx; subst hy; exact hab), collapse_runs_of_noTriple _ hN,
        collapse_runs_snoc 3 (A ++ [a]) b (fun c hc => by
          have hc : c = a := by simpa using hc.symm
          subst hc; exact hab)]
      simp

/-! ### The character rewriter as a function to lists -/

theorem write_list_append (new : Buf) (y : Nat) (l1 l2 : List Nat) :
    write_list new y (l1 ++ l2) = write_list (write_list new y l1) (y + l1.length) l2 := by
  induction l1 generalizing new y with
  | nil => simp [write_list]
  | cons v l ih =>
    rw [List.cons_append, write_list, write_list, List.length_cons, ih]
    have e : y + 1 + l.length = y + (l.length + 1) := by omega
    rw [e]

theorem write_list_lt (new : Buf) (y : Nat) (l : List Nat) (k : Nat) (h : k < y) :
    write_list new y l k = new k := by
  induction l generalizing new y with
  | nil => rfl
  | cons v l ih =>
    rw [write_list, ih _ _ (by omega)]
    have : k ≠ y := by omega
    simp [Buf.write, this]

theorem write_list_ge (new : Buf) (y : Nat) (l : List Nat) (k : Nat) (h : y + l.length ≤ k) :
    write_list new y l k = new k := by
  induction l generalizing new y with
  | nil => rfl
  | cons v l ih =>
    simp only [List.length_cons] at h
    rw [write_list, ih _ _ (by omega)]
    have : k ≠ y := by omega
    simp [Buf.write, this]

theorem write_list_seg (new : Buf) (y : Nat) (l : List Nat) :
    seg (write_list new y l) y l.length = l := by
  induction l generalizing new y with
  | nil => simp [seg_zero]
  | cons v l ih =>
    rw [List.length_cons, seg_succ, write_list, ih, write_list_lt _ _ _ _ (by omega)]
    simp [Buf.write]

theorem reemit_eq (s : Buf) (n i : Nat) (new : Buf) (y : Nat) :
    reemit s n i new y
      = (i + n, write_list new y (reemit_out s n i), y + (reemit_out s n i).length) := by
  induction n generalizing i new y with
  | zero => simp [reemit, reemit_out, write_list]
  | succ n ih =>
    rw [reemit, reemit_out]
    split
    · rw [ih]; simp only [Prod.mk.injEq, and_true]; omega
    · rw [ih]
      simp only [write_list, List.length_cons, Prod.mk.injEq, true_and]
      constructor <;> omega

theorem replace_body_eq (alpha : Nat → Bool) (s : Buf) (len i : Nat) (new : Buf) (y : Nat) :
    replace_body alpha s len i new y
      = ((body_out alpha s len i).2, write_list new y (body_out alpha s len i).1,
          y + (body_out alpha s len i).1.length) := by
  unfold replace_body body_out
  simp only
  split_ifs <;> simp [write_list, reemit_eq]
  omega

theorem replace_loop_eq (alpha : Nat → Bool) (s : Buf) (len fuel i : Nat) (new : Buf) (y : Nat) :
    replace_loop alpha s len fuel i new y
      = (replace_out alpha s len fuel i).map
          (fun out => (write_list new y out, y + out.length)) := by
  induction fuel generalizing i new y with
  | zero =>
    rw [replace_loop, replace_out]
    split <;> simp [write_list]
  | succ fuel ih =>
    rw [replace_loop, replace_out]
    split
    · simp only [replace_body_eq, ih, Option.map_map]
      congr 1
      funext out
      simp [write_list_append, Nat.add_assoc]
    · simp [write_list]

theorem replace_chars_eq (alpha : Nat → Bool) (s new : Buf) (len : Nat) :
    replace_chars alpha s new len
      = (replace_out alpha s len len 0).map (fun out => (write_list new 0 out, out.length)) := by
  rw [replace_chars, replace_loop_eq]
  congr 1
  funext out
  simp

theorem seg_write_list_snoc (junk : Buf) (out : List Nat) :
    seg (write_list junk 0 out) 0 (out.length + 1) = out ++ [junk out.length] := by
  rw [seg_snoc, write_list_seg, write_list_ge _ _ _ _ (by omega)]

theorem int_of_ssize_of_le (n : Nat) (h : n ≤ INT_MAX) : int_of_ssize n = (n : Int) := by
  have e : n % 4294967296 = n := Nat.mod_eq_of_lt (by unfold INT_MAX at h; omega)
  unfold int_of_ssize
  rw [e, if_pos h]

/-- The function `normalize` in terms of lists, on a text whose length and whose
rewritten length are below `INT_MAX`: the rewritten text followed by the slot
`replace_chars` left unwritten is collapsed, and its last slot is cut off. -/
theorem normalize_eq (alpha : Nat → Bool) (junk : Buf) (input out : List Nat)
    (h : replace_out alpha (ofList input) input.length input.length 0 = some out)
    (hn : input.length < INT_MAX) (hy : out.length < INT_MAX) :
    normalize alpha junk input
      = some (collapse_runs 3 (out ++ [junk out.length])).dropLast := by
  obtain ⟨s2, len2, hred, _, hseg, _⟩ :=
    reduce_repeated_letters_spec (write_list junk 0 out) out.length
  rw [seg_write_list_snoc, seg_snoc] at hseg
  have h1 : ¬((int_of_ssize input.length).toNat = INT_MAX ∧ input.length ≠ INT_MAX) := by
    rw [int_of_ssize_of_le _ (le_of_lt hn), Int.toNat_ofNat]
    omega
  have h2 : ¬ INT_MAX < out.length := by omega
  have h3 : ¬(out.length = INT_MAX ∧ len2 < out.length) := by omega
  unfold normalize
  simp only [h1, if_false]
  rw [int_of_ssize_of_le _ (le_of_lt hn), Int.toNat_ofNat, replace_chars_eq, h]
  simp only [Option.map_some', h2, if_false]
  rw [hred]
  simp only [h3, if_false, toList_eq_seg]
  rw [← hseg]
  simp

/-! ### The matcher only sees `alpha` through `iswordch` on the characters of the
buffer -/

mutual
theorem match_suff_congr (a1 a2 : Nat → Bool) (s : Buf)
    (h : ∀ k, iswordch a1 (s k) = iswordch a2 (s k)) :
    ∀ (f : suffix) (p max sep : Nat),
      match_suff a1 s f p max sep = match_suff a2 s f p max sep
  | .mk text opts, p, max, sep => by
    simp only [match_suff]
    rw [h (p + text.length), match_opts_congr a1 a2 s h opts, match_opts_congr a1 a2 s h opts]
theorem match_opts_congr (a1 a2 : Nat → Bool) (s : Buf)
    (h : ∀ k, iswordch a1 (s k) = iswordch a2 (s k)) :
    ∀ (os : List suffix) (p max sep : Nat) (e : Option Nat),
      match_opts a1 s os p max sep e = match_opts a2 s os p max sep e
  | [], _, _, _, _ => by simp only [match_opts]
  | o :: os, p, max, sep, e => by
    simp only [match_opts]
    rw [match_suff_congr a1 a2 s h o, match_opts_congr a1 a2 s h os]
end

theorem is_incl_suff_congr (a1 a2 : Nat → Bool) (s : Buf)
    (h : ∀ k, iswordch a1 (s k) = iswordch a2 (s k)) (p len sep : Nat) :
    is_incl_suff a1 s p len sep = is_incl_suff a2 s p len sep := by
  unfold is_incl_suff
  generalize suff_feminine = fs
  induction fs with
  | nil => rfl
  | cons f fs ih => simp only [is_incl_suff_loop, match_suff_congr a1 a2 s h, ih]

theorem replace_out_congr (a1 a2 : Nat → Bool) (s : Buf)
    (h : ∀ k, iswordch a1 (s k) = iswordch a2 (s k)) (len fuel i : Nat) :
    replace_out a1 s len fuel i = replace_out a2 s len fuel i := by
  have hb : ∀ i, body_out a1 s len i = body_out a2 s len i := by
    intro i
    simp only [body_out, is_incl_suff_congr a1 a2 s h]
  induction fuel generalizing i with
  | zero => rfl
  | succ fuel ih => simp only [replace_out, hb, ih]

/-! ### Concrete words -/

theorem latin_alpha_basic : AlphaBasic latin_alpha := by
  refine ⟨?_, by decide, by decide, by decide, by decide, by decide⟩
  intro c h1 h2
  simp [latin_alpha, h1, h2]

theorem iswordch_basic (alpha : Nat → Bool) (h : AlphaBasic alpha) (c : Nat)
    (hc : basic_char c = true) : iswordch alpha c = iswordch latin_alpha c := by
  obtain ⟨h1, h2, h3, h4, h5, h6⟩ := h
  obtain ⟨g1, g2, g3, g4, g5, g6⟩ := latin_alpha_basic
  simp only [basic_char, Bool.or_eq_true, Bool.and_eq_true, decide_eq_true_eq, beq_iff_eq] at hc
  rcases hc with (((((⟨a, b⟩ | rfl) | rfl) | rfl) | rfl) | rfl) | rfl
  · simp [iswordch, h1 c a b, g1 c a b]
  · simp [iswordch, h2, g2]
  · simp [iswordch, h3, g3]
  · simp [iswordch, h4, g4]
  · simp [iswordch, h5, g5]
  · simp [iswordch, h6, g6]
  · simp [iswordch]

theorem ofList_basic (input : List Nat) (h : input.all basic_char = true) (k : Nat) :
    basic_char (ofList input k) = true := by
  unfold ofList
  by_cases hk : k < input.length
  · rw [List.getD_eq_getElem _ _ hk]
    exact List.all_eq_true.1 h _ (List.getElem_mem hk)
  · rw [List.getD_eq_default _ _ (by omega)]
    rfl

theorem ends_distinct_spec (l : List Nat) (h : ends_distinct l = true) :
    ∀ a b A, l = A ++ [a, b] → a ≠ b := by
  intro a b A e
  subst e
  simpa [ends_distinct] using h

theorem normalize_of_word_check (alpha : Nat → Bool) (junk : Buf) (h : AlphaBasic alpha)
    (input out expected : List Nat) (hc : word_check input out expected = true) :
    normalize alpha junk input = some expected := by
  simp only [word_check, Bool.and_eq_true, beq_iff_eq, decide_eq_true_eq] at hc
  obtain ⟨⟨⟨⟨⟨h1, h2⟩, h3⟩, h4⟩, h5⟩, h6⟩ := hc
  have hcongr := replace_out_congr alpha latin_alpha (ofList input)
    (fun k => iswordch_basic alpha h _ (ofList_basic input h1 k))
    input.length input.length 0
  rw [normalize_eq alpha junk input out (by rw [hcongr, h2]) h5 h6,
    collapse_runs_snoc_of_ends out _ (ends_distinct_spec out h3), h4]
  simp

theorem c1_check : ∀ f ∈ suff_feminine, ∀ sep ∈ [45, 46, 183],
    word_check (cp "mot" ++ sep :: f.str ++ sep :: 120 :: sep :: [115])
      (cp "mot·" ++ f.str ++ [115]) (cp "mot·" ++ f.str ++ [115]) = true := by
  decide

theorem c2_check : ∀ f ∈ suff_feminine, ∀ sep ∈ [45, 46, 183],
    word_check (cp "acteur" ++ sep :: f.str)
      (cp "acteur·" ++ f.str) (cp "acteur·" ++ f.str) = true := by
  decide

/-! ### The reducer for runs of two only reads the slots `0..len` -/

theorem run_start_congr (s t : Buf) (c i : Nat) (h : ∀ k, k < i → s k = t k) :
    run_start s c i = run_start t c i := by
  induction i with
  | zero => rfl
  | succ i ih =>
    rw [run_start, run_start, h i (by omega), ih (fun k hk => h k (by omega))]

theorem reduce_loop_2_congr (fuel : Nat) : ∀ (s t : Buf) (len i : Nat),
    (∀ k, k ≤ len → s k = t k) → i ≤ len →
    (reduce_loop_2 s len i fuel).map (fun r => toList r.1 r.2)
      = (reduce_loop_2 t len i fuel).map (fun r => toList r.1 r.2) := by
  induction fuel with
  | zero =>
    intro s t len i h _
    simp only [reduce_loop_2]
    split
    · rfl
    · simp only [Option.map_some', toList]
      congr 1
      apply List.map_congr_left
      intro k hk
      exact h k (by have := List.mem_range.1 hk; omega)
  | succ fuel ih =>
    intro s t len i h hi
    rw [reduce_loop_2, reduce_loop_2]
    by_cases h1 : i > 1
    · simp only [h1, if_true]
      rw [← h i hi, ← h (i - 1) (by omega)]
      by_cases h2 : s i = s (i - 1)
      · simp only [h2, if_true]
        rw [← run_start_congr s t (s (i - 1)) i (fun k hk => h k (by omega))]
        have hle := run_start_le s (s (i - 1)) i
        generalize run_start s (s (i - 1)) i = i0 at hle
        rw [shift_left_snd, shift_left_snd]
        apply ih
        · intro k hk
          rw [shift_left_fst _ _ _ _ hle, shift_left_fst _ _ _ _ hle]
          split
          · exact h _ (by omega)
          · exact h _ (by omega)
        · omega
      · simp only [h2, if_false]
        exact ih s t len (i - 1) h (by omega)
    · simp only [h1, if_false, Option.map_some', toList]
      congr 1
      apply List.map_congr_left
      intro k hk
      exact h k (by have := List.mem_range.1 hk; omega)

theorem fold_loop_apply (s : Buf) (n i : Nat) (new : Buf) (k : Nat) :
    fold_loop s n i new k = if i ≤ k ∧ k < i + n then fold_char (s k) else new k := by
  induction n generalizing i new with
  | zero =>
    have : ¬ (i ≤ k ∧ k < i) := by omega
    simp [fold_loop, this]
  | succ n ih =>
    rw [fold_loop, ih]
    by_cases h1 : i + 1 ≤ k ∧ k < i + 1 + n
    · have h2 : i ≤ k ∧ k < i + (n + 1) := by omega
      rw [if_pos h1, if_pos h2]
    · rw [if_neg h1]
      by_cases h3 : k = i
      · subst h3
        simp [Buf.write]
      · have h2 : ¬ (i ≤ k ∧ k < i + (n + 1)) := by omega
        rw [if_neg h2]
        simp [Buf.write, h3]

theorem ofList_map_fold (input : List Nat) (k : Nat) :
    ofList (input.map fold_char) k = fold_char (ofList input k) := by
  unfold ofList
  by_cases hk : k < input.length
  · rw [List.getD_eq_getElem _ _ (by simpa using hk), List.getD_eq_getElem _ _ hk]
    simp
  · rw [List.getD_eq_default _ _ (by simp; omega), List.getD_eq_default _ _ (by omega)]
    rfl

/-- The function `dediacritic_dedoubler` does not depend on what the fresh buffer
held: it is the reducer for runs of two on the folded text and its terminator. -/
theorem dediacritic_dedoubler_eq (junk : Buf) (input : List Nat) :
    dediacritic_dedoubler junk input
      = (reduce_repeated_letters_2 (ofList (input.map fold_char)) input.length).map
          (fun r => toList r.1 r.2) := by
  have h := reduce_loop_2_congr input.length
    (fold_loop (ofList input) (input.length + 1) 0 junk) (ofList (input.map fold_char))
    input.length input.length
    (fun k hk => by
      rw [fold_loop_apply, ofList_map_fold, if_pos (by omega)])
    (le_refl _)
  unfold dediacritic_dedoubler reduce_repeated_letters_2
  simp only
  rw [← h]
  cases reduce_loop_2 (fold_loop (ofList input) (input.length + 1) 0 junk) input.length
    input.length input.length <;> rfl

/-! ### Inputs without separators -/

theorem body_out_of_not_sep (alpha : Nat → Bool) (s : Buf) (len i : Nat)
    (h : s i ≠ 45 ∧ s i ≠ 46 ∧ s i ≠ 183) :
    body_out alpha s len i = (rewrite_char (s i), i) := by
  obtain ⟨h1, h2, h3⟩ := h
  unfold body_out rewrite_char
  simp only [List.mem_cons, List.mem_singleton, List.not_mem_nil, or_false, h1, h2, h3,
    false_or, if_false]
  split_ifs <;> first | rfl | omega

theorem ofList_of_lt (input : List Nat) (i : Nat) (h : i < input.length) :
    ofList input i = input[i] := by
  unfold ofList
  exact List.getD_eq_getElem _ _ h

theorem ofList_length (input : List Nat) : ofList input input.length = 0 := by
  unfold ofList
  exact List.getD_eq_default _ _ (le_refl _)

theorem replace_out_no_sep (alpha : Nat → Bool) (input : List Nat)
    (h : ∀ c ∈ input, c ≠ 45 ∧ c ≠ 46 ∧ c ≠ 183) (fuel : Nat) :
    ∀ i, input.length - i ≤ fuel →
      replace_out alpha (ofList input) input.length fuel i
        = some ((input.drop i).flatMap rewrite_char) := by
  induction fuel with
  | zero =>
    intro i hi
    have : ¬ i < input.length := by omega
    rw [replace_out, if_neg this, List.drop_eq_nil_of_le (by omega)]
    rfl
  | succ fuel ih =>
    intro i hi
    rw [replace_out]
    by_cases hlt : i < input.length
    · rw [if_pos hlt, body_out_of_not_sep alpha _ _ _
        (by rw [ofList_of_lt _ _ hlt]; exact h _ (List.getElem_mem hlt))]
      simp only
      rw [ih (i + 1) (by omega), ofList_of_lt _ _ hlt, List.drop_eq_getElem_cons hlt]
      simp only [Option.map_some', List.flatMap_cons]
    · rw [if_neg hlt, List.drop_eq_nil_of_le (by omega)]
      rfl

theorem normalize_of_plain_check (alpha : Nat → Bool) (junk : Buf)
    (input expected : List Nat) (hc : plain_check input expected = true) :
    normalize alpha junk input = some expected := by
  simp only [plain_check, Bool.and_eq_true, beq_iff_eq, List.all_eq_true, bne_iff_ne,
    decide_eq_true_eq] at hc
  obtain ⟨⟨⟨⟨h1, h2⟩, h3⟩, h4⟩, h5⟩ := hc
  have hout := replace_out_no_sep alpha input (fun c hc => ⟨(h1 c hc).1.1, (h1 c hc).1.2, (h1 c hc).2⟩) input.length 0 (by omega)
  rw [List.drop_zero] at hout
  rw [normalize_eq alpha junk input _ hout h4 h5,
    collapse_runs_snoc_of_ends _ _ (ends_distinct_spec _ h2), h3]
  simp

/-! ### The matched span stays inside the text -/

theorem literal_eq_apply (s : Buf) (p : Nat) (text : List Nat)
    (h : literal_eq s p text = true) (j : Nat) (hj : j < text.length) :
    s (p + j) = text[j] := by
  induction text generalizing p j with
  | nil => simp at hj
  | cons t ts ih =>
    rw [literal_eq] at h
    split at h
    · simp at h
    · rename_i hne
      have hne : s p = t := by simpa using hne
      cases j with
      | zero => simpa using hne
      | succ j =>
        have := ih (p + 1) h j (by simpa using hj)
        simpa [Nat.add_assoc, Nat.add_comm 1 j] using this

/-- A literal without NUL that matches in a window whose last slot holds NUL ends
before that slot. -/
theorem literal_eq_lt (s : Buf) (p max e : Nat) (text : List Nat)
    (he : s e = 0) (hp : p ≤ e) (hmax : p + max = e + 1)
    (hnz : text.all (fun c => c != 0) = true)
    (hlen : ¬ max < text.length) (h : literal_eq s p text = true) :
    p + text.length ≤ e := by
  by_contra hcon
  have hj : e - p < text.length := by omega
  have := literal_eq_apply s p text h (e - p) hj
  have e1 : p + (e - p) = e := by omega
  rw [e1, he] at this
  have hmem := List.all_eq_true.1 hnz _ (List.getElem_mem hj)
  rw [← this] at hmem
  simp at hmem

mutual
theorem match_suff_le (alpha : Nat → Bool) (s : Buf) (e : Nat) (he : s e = 0) :
    ∀ (f : suffix) (p max sep : Nat), f.nonzero = true → sep ≠ 0 → p ≤ e →
      p + max = e + 1 → ∀ x, match_suff alpha s f p max sep = some x → x ≤ e
  | .mk text opts, p, max, sep, hnz, hsep, hp, hmax, x, hx => by
    simp only [suffix.nonzero, Bool.and_eq_true] at hnz
    simp only [match_suff] at hx
    split at hx
    · simp at hx
    · rename_i hlen
      split at hx
      · simp at hx
      · rename_i hlit
        have hlit : literal_eq s p text = true := by simpa using hlit
        have hend := literal_eq_lt s p max e text he hp hmax hnz.1 hlen hlit
        split at hx
        · omega
        · split at hx
          · have : x = p + text.length := by simpa using hx.symm
            omega
          · split at hx
            · rename_i hc
              have hne : p + text.length ≠ e := by
                intro e2
                rw [e2, he] at hc
                exact hsep hc.symm
              exact match_opts_le alpha s e he opts (p + (text.length + 1))
                (max - (text.length + 1)) sep (some (p + text.length)) hnz.2 hsep
                (by omega) (by omega)
                (fun y hy => by
                  have : y = p + text.length := by simpa using hy.symm
                  omega) x hx
            · exact match_opts_le alpha s e he opts (p + text.length)
                (max - text.length) sep none hnz.2 hsep
                (by omega) (by omega) (fun y hy => by simp at hy) x hx
theorem match_opts_le (alpha : Nat → Bool) (s : Buf) (e : Nat) (he : s e = 0) :
    ∀ (os : List suffix) (p max sep : Nat) (endptr : Option Nat),
      nonzero_all os = true → sep ≠ 0 → p ≤ e → p + max = e + 1 →
      (∀ y, endptr = some y → y ≤ e) →
      ∀ x, match_opts alpha s os p max sep endptr = some x → x ≤ e
  | [], _, _, _, endptr, _, _, _, _, hend, x, hx => by
    simp only [match_opts] at hx
    exact hend x hx
  | o :: os, p, max, sep, endptr, hnz, hsep, hp, hmax, hend, x, hx => by
    simp only [nonzero_all, Bool.and_eq_true] at hnz
    simp only [match_opts] at hx
    split at hx
    · rename_i y hy
      have : x = y := by simpa using hx.symm
      subst this
      exact match_suff_le alpha s e he o p max sep hnz.1 hsep hp hmax x hy
    · exact match_opts_le alpha s e he os p max sep endptr hnz.2 hsep hp hmax hend x hx
end

theorem is_incl_suff_le (alpha : Nat → Bool) (s : Buf) (len i sep : Nat)
    (he : s len = 0) (hi : i < len) (hsep : sep ≠ 0) :
    is_incl_suff alpha s i (len - i) sep ≤ len - i := by
  unfold is_incl_suff
  have hcat : ∀ f ∈ suff_feminine, f.nonzero = true := by decide
  generalize suff_feminine = fs at hcat
  induction fs with
  | nil => simp [is_incl_suff_loop]
  | cons f fs ih =>
    rw [is_incl_suff_loop]
    split
    · rename_i x hx
      have := match_suff_le alpha s len he f (i + 1) (len - i) sep
        (hcat f (List.mem_cons_self _ _)) hsep (by omega) (by omega) x hx
      omega
    · exact ih (fun g hg => hcat g (List.mem_cons_of_mem _ hg))

theorem reemit_out_length_le (s : Buf) (n i : Nat) : (reemit_out s n i).length ≤ n := by
  induction n generalizing i with
  | zero => simp [reemit_out]
  | succ n ih =>
    rw [reemit_out]
    split
    · have := ih (i + 1); omega
    · have := ih (i + 1); simp only [List.length_cons]; omega

/-- One pass through the `switch` moves the input index forward, keeps it inside the
text, and writes at most twice as many characters as it consumes. -/
theorem body_out_bound (alpha : Nat → Bool) (s : Buf) (len i : Nat)
    (he : s len = 0) (hi : i < len) :
    i ≤ (body_out alpha s len i).2 ∧ (body_out alpha s len i).2 + 1 ≤ len
      ∧ (body_out alpha s len i).1.length ≤ 2 * ((body_out alpha s len i).2 + 1 - i) := by
  unfold body_out
  simp only
  split_ifs with h1 h2 h3 h4 h5 h6 h7
  all_goals try (simp only [List.length_nil, List.length_cons]; omega)
  have hle := is_incl_suff_le alpha s len i (s i) he hi (by omega)
  have hre := reemit_out_length_le s (is_incl_suff alpha s i (len - i) (s i)) i
  simp only [List.length_cons]
  omega

theorem replace_out_total (alpha : Nat → Bool) (s : Buf) (len : Nat) (he : s len = 0)
    (fuel : Nat) : ∀ i, i ≤ len → len - i ≤ fuel →
      ∃ out, replace_out alpha s len fuel i = some out ∧ out.length ≤ 2 * (len - i) := by
  induction fuel with
  | zero =>
    intro i h1 h2
    have : ¬ i < len := by omega
    exact ⟨[], by rw [replace_out, if_neg this], by simp⟩
  | succ fuel ih =>
    intro i h1 h2
    by_cases hlt : i < len
    · obtain ⟨b1, b2, b3⟩ := body_out_bound alpha s len i he hlt
      obtain ⟨out, ho, hl⟩ := ih ((body_out alpha s len i).2 + 1) b2 (by omega)
      refine ⟨(body_out alpha s len i).1 ++ out, ?_, ?_⟩
      · rw [replace_out, if_pos hlt, ho]; rfl
      · rw [List.length_append]; omega
    · exact ⟨[], by rw [replace_out, if_neg hlt], by simp⟩

theorem collapse_runs_length_le (l : List Nat) : (collapse_runs 3 l).length ≤ l.length := by
  have hd := rle_decode l
  unfold collapse_runs
  conv_rhs => rw [← hd]
  generalize rle l = rs
  induction rs with
  | nil => simp
  | cons r rs ih =>
    simp only [List.flatMap_cons, List.length_append]
    have : (if 3 ≤ r.2 then [r.1] else List.replicate r.2 r.1).length
        ≤ (List.replicate r.2 r.1).length := by
      split
      · simp; omega
      · exact le_refl _
    omega

theorem replace_out_of_fixed (alpha : Nat → Bool) (junk : Buf) (r : List Nat)
    (h : (replace_chars alpha (ofList r) junk r.length).map (fun p => toList p.1 p.2)
      = some r) :
    replace_out alpha (ofList r) r.length r.length 0 = some r := by
  rw [replace_chars_eq] at h
  cases ho : replace_out alpha (ofList r) r.length r.length 0 with
  | none => rw [ho] at h; simp at h
  | some out =>
    rw [ho] at h
    simp only [Option.map_some', Option.some.injEq, toList_eq_seg, write_list_seg] at h
    rw [h]

/-! ### Texts the rewriter leaves unchanged -/

theorem rle_pos (l : List Nat) : ∀ r ∈ rle l, 0 < r.2 := by
  induction l with
  | nil => simp [rle]
  | cons c l ih =>
    rw [rle]
    cases hr : rle l with
    | nil => simp
    | cons r rs =>
      obtain ⟨d, n⟩ := r
      rw [hr] at ih
      by_cases hcd : c = d
      · simp only [hcd, if_true]
        intro r hmem
        rcases List.mem_cons.1 hmem with e | hmem
        · subst e; simp
        · exact ih r (List.mem_cons_of_mem _ hmem)
      · simp only [hcd, if_false]
        intro r hmem
        rcases List.mem_cons.1 hmem with e | hmem
        · subst e; simp
        · exact ih r hmem

theorem mem_of_mem_collapse_runs (k : Nat) (l : List Nat) (c : Nat)
    (h : c ∈ collapse_runs k l) : c ∈ l := by
  have hd := rle_decode l
  have hp := rle_pos l
  unfold collapse_runs at h
  rw [← hd]
  obtain ⟨r, hr, hc⟩ := List.mem_flatMap.1 h
  refine List.mem_flatMap.2 ⟨r, hr, ?_⟩
  have hpos := hp r hr
  have : c = r.1 := by
    split at hc
    · simpa using hc
    · exact (List.mem_replicate.1 hc).2
  rw [this]
  exact List.mem_replicate.2 ⟨by omega, rfl⟩

theorem flatMap_rewrite_char_of_plain (l : List Nat) (h : ∀ c ∈ l, rewrite_char c = [c]) :
    l.flatMap rewrite_char = l := by
  induction l with
  | nil => rfl
  | cons c l ih =>
    rw [List.flatMap_cons, h c (List.mem_cons_self _ _),
      ih (fun d hd => h d (List.mem_cons_of_mem _ hd))]
    rfl

theorem match_opts_of_none (alpha : Nat → Bool) (s : Buf) (os : List suffix)
    (p max sep : Nat) (e : Option Nat)
    (h : ∀ o ∈ os, match_suff alpha s o p max sep = none) :
    match_opts alpha s os p max sep e = e := by
  induction os with
  | nil => simp only [match_opts]
  | cons o os ih =>
    simp only [match_opts]
    rw [h o (List.mem_cons_self _ _)]
    exact ih (fun q hq => h q (List.mem_cons_of_mem _ hq))

theorem match_opts_some (alpha : Nat → Bool) (s : Buf) (os : List suffix)
    (p max sep x : Nat) (h : match_opts alpha s os p max sep none = some x) :
    ∃ o ∈ os, match_suff alpha s o p max sep = some x := by
  induction os with
  | nil => simp [match_opts] at h
  | cons o os ih =>
    simp only [match_opts] at h
    cases hm : match_suff alpha s o p max sep with
    | some y =>
      rw [hm] at h
      exact ⟨o, List.mem_cons_self _ _, by rw [hm]; exact h⟩
    | none =>
      rw [hm] at h
      obtain ⟨q, hq, hx⟩ := ih h
      exact ⟨q, List.mem_cons_of_mem _ hq, hx⟩

/-- The matcher after a literal that matched and left room: the three cases on the
next character. -/
theorem match_suff_after_literal (alpha : Nat → Bool) (s : Buf) (text : List Nat)
    (opts : List suffix) (p max sep : Nat) (hmax : text.length < max)
    (hlit : literal_eq s p text = true) :
    match_suff alpha s (.mk text opts) p max sep
      = if !iswordch alpha (s (p + text.length)) && s (p + text.length) != sep then
          some (p + text.length)
        else if s (p + text.length) = sep then
          match_opts alpha s opts (p + (text.length + 1)) (max - (text.length + 1)) sep
            (some (p + text.length))
        else match_opts alpha s opts (p + text.length) (max - text.length) sep none := by
  have h1 : ¬ max < text.length := by omega
  have h2 : ¬ max - text.length = 0 := by omega
  simp only [match_suff, h1, hlit, h2, if_false, Bool.not_true, Bool.false_eq_true]

theorem match_suff_sep_no_option (alpha : Nat → Bool) (s : Buf) (text : List Nat)
    (opts : List suffix) (p max sep : Nat) (hmax : text.length < max)
    (hlit : literal_eq s p text = true) (hsep : s (p + text.length) = sep)
    (hno : ∀ o ∈ opts,
      match_suff alpha s o (p + (text.length + 1)) (max - (text.length + 1)) sep = none) :
    match_suff alpha s (.mk text opts) p max sep = some (p + text.length) := by
  rw [match_suff_after_literal alpha s text opts p max sep hmax hlit,
    match_opts_of_none _ _ _ _ _ _ _ hno]
  simp [hsep]

theorem literal_eq_false (s : Buf) (p : Nat) (text : List Nat)
    (h : ∃ j, ∃ hj : j < text.length, s (p + j) ≠ text[j]) :
    literal_eq s p text = false := by
  obtain ⟨j, hj, hne⟩ := h
  cases hl : literal_eq s p text with
  | false => rfl
  | true => exact absurd (literal_eq_apply s p text hl j hj) hne

theorem replace_text_eq (alpha : Nat → Bool) (new : Buf) (input : List Nat) :
    replace_text alpha new input
      = replace_out alpha (ofList input) input.length input.length 0 := by
  unfold replace_text
  rw [replace_chars_eq]
  cases replace_out alpha (ofList input) input.length input.length 0 with
  | none => rfl
  | some out => simp [toList_eq_seg, write_list_seg]

theorem replace_text_of_rewrite_check (alpha : Nat → Bool) (new : Buf) (h : AlphaBasic alpha)
    (input out : List Nat) (hc : rewrite_check input out = true) :
    replace_text alpha new input = some out := by
  simp only [rewrite_check, Bool.and_eq_true, beq_iff_eq] at hc
  rw [replace_text_eq, replace_out_congr alpha latin_alpha (ofList input)
    (fun k => iswordch_basic alpha h _ (ofList_basic input hc.1 k)), hc.2]

theorem c16_check_other : ∀ f ∈ suff_feminine, ∀ q ∈ [(45, 46), (46, 45)],
    rewrite_check (cp "mot" ++ q.1 :: f.str ++ q.2 :: [115])
      (cp "mot·" ++ f.str ++ q.2 :: [115]) = true := by
  decide

theorem c16_check_middot : ∀ f ∈ suff_feminine, ∀ sep1 ∈ [45, 46],
    rewrite_check (cp "mot" ++ sep1 :: f.str ++ [183, 115])
      (cp "mot" ++ sep1 :: f.str ++ [183, 115]) = true := by
  decide

/-! ### Depth of the recursion of the matcher; progress of the scan -/

mutual
theorem match_suff_within_eq (alpha : Nat → Bool) (s : Buf) :
    ∀ (f : suffix) (d p max sep : Nat), f.depth ≤ d →
      match_suff_within alpha s d f p max sep = some (match_suff alpha s f p max sep)
  | .mk text opts, d, p, max, sep, hd => by
    simp only [suffix.depth] at hd
    obtain ⟨d, rfl⟩ : ∃ e, d = e + 1 := ⟨d - 1, by omega⟩
    have hd2 : depth_all opts ≤ d := by omega
    simp only [match_suff_within, match_suff]
    rw [first_within_eq alpha s opts d _ _ sep _ hd2, first_within_eq alpha s opts d _ _ sep _ hd2]
    split_ifs <;> rfl
theorem first_within_eq (alpha : Nat → Bool) (s : Buf) :
    ∀ (os : List suffix) (d p max sep : Nat) (e : Option Nat), depth_all os ≤ d →
      first_within (fun o => match_suff_within alpha s d o p max sep) os e
        = some (match_opts alpha s os p max sep e)
  | [], _, _, _, _, _, _ => by simp only [first_within, match_opts]
  | o :: os, d, p, max, sep, e, hd => by
    simp only [depth_all] at hd
    have h1 : o.depth ≤ d := le_trans (le_max_left _ _) hd
    have h2 : depth_all os ≤ d := le_trans (le_max_right _ _) hd
    simp only [first_within, match_opts]
    rw [match_suff_within_eq alpha s o d p max sep h1]
    cases match_suff alpha s o p max sep with
    | some x => rfl
    | none => exact first_within_eq alpha s os d p max sep e h2
end

theorem body_out_advance (alpha : Nat → Bool) (s : Buf) (len i : Nat) :
    i ≤ (body_out alpha s len i).2 := by
  unfold body_out
  simp only
  split_ifs
  all_goals dsimp only
  all_goals omega

theorem replace_out_some (alpha : Nat → Bool) (s : Buf) (len fuel : Nat) :
    ∀ i, len - i ≤ fuel → ∃ out, replace_out alpha s len fuel i = some out := by
  induction fuel with
  | zero =>
    intro i h
    have : ¬ i < len := by omega
    exact ⟨[], by rw [replace_out, if_neg this]⟩
  | succ fuel ih =>
    intro i h
    by_cases hlt : i < len
    · have hadv := body_out_advance alpha s len i
      obtain ⟨out, ho⟩ := ih ((body_out alpha s len i).2 + 1) (by omega)
      exact ⟨(body_out alpha s len i).1 ++ out, by rw [replace_out, if_pos hlt, ho]; rfl⟩
    · exact ⟨[], by rw [replace_out, if_neg hlt]⟩

/-! ### The indices the matcher and the inner loop read -/

theorem literal_eq_congr (s t : Buf) (p : Nat) (text : List Nat)
    (h : ∀ j, p ≤ j → j < p + text.length → s j = t j) :
    literal_eq s p text = literal_eq t p text := by
  induction text generalizing p with
  | nil => rfl
  | cons c cs ih =>
    simp only [List.length_cons] at h
    rw [literal_eq, literal_eq, h p (le_refl _) (by omega),
      ih (p + 1) (fun j h1 h2 => h j (by omega) (by omega))]

mutual
theorem match_suff_window (alpha : Nat → Bool) (s t : Buf) :
    ∀ (f : suffix) (p max sep : Nat), (∀ j, p ≤ j → j < p + max → s j = t j) →
      match_suff alpha s f p max sep = match_suff alpha t f p max sep
  | .mk text opts, p, max, sep, h => by
    simp only [match_suff]
    by_cases h1 : max < text.length
    · simp only [h1, if_true]
    · simp only [h1, if_false]
      rw [literal_eq_congr s t p text (fun j a b => h j a (by omega))]
      by_cases h2 : max - text.length = 0
      · simp only [h2, if_true]
      · simp only [h2, if_false]
        rw [h (p + text.length) (by omega) (by omega),
          match_opts_window alpha s t opts (p + (text.length + 1)) (max - (text.length + 1))
            sep _ (fun j a b => h j (by omega) (by omega)),
          match_opts_window alpha s t opts (p + text.length) (max - text.length)
            sep _ (fun j a b => h j (by omega) (by omega))]
theorem match_opts_window (alpha : Nat → Bool) (s t : Buf) :
    ∀ (os : List suffix) (p max sep : Nat) (e : Option Nat),
      (∀ j, p ≤ j → j < p + max → s j = t j) →
      match_opts alpha s os p max sep e = match_opts alpha t os p max sep e
  | [], _, _, _, _, _ => by simp only [match_opts]
  | o :: os, p, max, sep, e, h => by
    simp only [match_opts]
    rw [match_suff_window alpha s t o p max sep h, match_opts_window alpha s t os p max sep e h]
end

mutual
theorem match_suff_ge (alpha : Nat → Bool) (s : Buf) :
    ∀ (f : suffix) (p max sep x : Nat), match_suff alpha s f p max sep = some x →
      p + f.len ≤ x
  | .mk text opts, p, max, sep, x, hx => by
    simp only [suffix.len, suffix.str]
    simp only [match_suff] at hx
    split at hx
    · simp at hx
    · split at hx
      · simp at hx
      · split at hx
        · have : x = p + text.length := by simpa using hx.symm
          omega
        · split at hx
          · have : x = p + text.length := by simpa using hx.symm
            omega
          · split at hx
            · have := match_opts_ge alpha s opts (p + (text.length + 1))
                (max - (text.length + 1)) sep (some (p + text.length)) x hx
              rcases this with h | h
              · have : x = p + text.length := by simpa using h.symm
                omega
              · omega
            · have := match_opts_ge alpha s opts (p + text.length)
                (max - text.length) sep none x hx
              rcases this with h | h
              · simp at h
              · omega
theorem match_opts_ge (alpha : Nat → Bool) (s : Buf) :
    ∀ (os : List suffix) (p max sep : Nat) (e : Option Nat) (x : Nat),
      match_opts alpha s os p max sep e = some x → e = some x ∨ p ≤ x
  | [], _, _, _, _, _, hx => by
    simp only [match_opts] at hx
    exact Or.inl hx
  | o :: os, p, max, sep, e, x, hx => by
    simp only [match_opts] at hx
    split at hx
    · rename_i y hy
      have : x = y := by simpa using hx.symm
      subst this
      have := match_suff_ge alpha s o p max sep x hy
      exact Or.inr (by omega)
    · exact match_opts_ge alpha s os p max sep e x hx
end

theorem is_incl_suff_loop_window (alpha : Nat → Bool) (s t : Buf) (p len sep : Nat)
    (h : ∀ j, p + 1 ≤ j → j < p + 1 + len → s j = t j) (fs : List suffix) :
    is_incl_suff_loop alpha s p len sep fs = is_incl_suff_loop alpha t p len sep fs := by
  induction fs with
  | nil => rfl
  | cons f fs ih =>
    simp only [is_incl_suff_loop, match_suff_window alpha s t f (p + 1) len sep h, ih]

theorem is_incl_suff_ge_two (alpha : Nat → Bool) (s : Buf) (p len sep : Nat)
    (h0 : is_incl_suff alpha s p len sep ≠ 0) : 2 ≤ is_incl_suff alpha s p len sep := by
  unfold is_incl_suff at h0 ⊢
  have hcat : ∀ f ∈ suff_feminine, 1 ≤ f.len := by decide
  generalize suff_feminine = fs at hcat h0
  induction fs with
  | nil => simp [is_incl_suff_loop] at h0
  | cons f fs ih =>
    rw [is_incl_suff_loop] at h0 ⊢
    split
    · rename_i x hx
      have := match_suff_ge alpha s f (p + 1) len sep x hx
      have := hcat f (List.mem_cons_self _ _)
      omega
    · rename_i hx
      rw [hx] at h0
      exact ih (fun g hg => hcat g (List.mem_cons_of_mem _ hg)) h0

theorem reemit_window (s t : Buf) (n i : Nat) (new : Buf) (y : Nat)
    (h : ∀ j, i ≤ j → j < i + n → s j = t j) :
    reemit s n i new y = reemit t n i new y := by
  induction n generalizing i new y with
  | zero => rfl
  | succ n ih =>
    rw [reemit, reemit, h i (le_refl _) (by omega)]
    split
    · exact ih _ _ _ (fun j a b => h j (by omega) (by omega))
    · exact ih _ _ _ (fun j a b => h j (by omega) (by omega))

/-! ### At most one catalog entry matches -/

theorem literal_eq_agree (s : Buf) (p : Nat) (t1 t2 : List Nat)
    (h1 : literal_eq s p t1 = true) (h2 : literal_eq s p t2 = true) :
    agree t1 t2 = true := by
  induction t1 generalizing p t2 with
  | nil => simp [agree]
  | cons a l1 ih =>
    cases t2 with
    | nil => simp [agree]
    | cons b l2 =>
      rw [literal_eq] at h1 h2
      split at h1
      · simp at h1
      · rename_i ha
        split at h2
        · simp at h2
        · rename_i hb
          have ha : s p = a := by simpa using ha
          have hb : s p = b := by simpa using hb
          simp only [agree, Bool.and_eq_true, beq_iff_eq]
          exact ⟨by rw [← ha, ← hb], ih (p + 1) l2 h1 h2⟩

theorem match_suff_literal (alpha : Nat → Bool) (s : Buf) (text : List Nat)
    (opts : List suffix) (p max sep x : Nat)
    (h : match_suff alpha s (.mk text opts) p max sep = some x) :
    text.length ≤ max ∧ literal_eq s p text = true := by
  simp only [match_suff] at h
  split at h
  · simp at h
  · split at h
    · simp at h
    · rename_i h1 h2
      exact ⟨by omega, by simpa using h2⟩

theorem match_suff_literal_str (alpha : Nat → Bool) (s : Buf) (f : suffix)
    (p max sep x : Nat) (h : match_suff alpha s f p max sep = some x) :
    f.str.length ≤ max ∧ literal_eq s p f.str = true := by
  cases f with
  | mk text opts => exact match_suff_literal alpha s text opts p max sep x h

/-- The entry `e` does not match where a longer entry that starts with `e` has its
literal: the next letter is `u`, or `s` followed by `e` or `s`. -/
theorem e_entry_none (alpha : Nat → Bool) (s : Buf) (p max sep : Nat) (hmax : 3 ≤ max)
    (h1 : s (p + 1) = 117 ∨ (s (p + 1) = 115 ∧ (s (p + 2) = 101 ∨ s (p + 2) = 115)))
    (hu : alpha 117 = true) (hs : alpha 115 = true) (he : alpha 101 = true)
    (hsep : sep = 45 ∨ sep = 46 ∨ sep = 183) :
    match_suff alpha s (.mk [101] suff_plural_nonbinary) p max sep = none := by
  have e1 : ¬ max < 1 := by omega
  have e2 : ¬ max - 1 = 0 := by omega
  have e3 : ¬ max - 1 < 1 := by omega
  have e4 : ¬ max - 1 - 1 = 0 := by omega
  rcases h1 with h | ⟨h, h2 | h2⟩ <;> rcases hsep with rfl | rfl | rfl <;>
    simp [match_suff, match_opts, literal_eq, suff_plural_nonbinary, suff_plural_s,
      suff_nonbinary_s, suff_plural, iswordch, h, hu, hs, he, e1, e2, e3, e4] <;>
    simp_all [Nat.add_assoc]

theorem catalog_agree : ∀ f ∈ suff_feminine, ∀ g ∈ suff_feminine,
    agree f.str g.str = true → f.str = g.str ∨ f.str = [101] ∨ g.str = [101] := by
  decide

theorem catalog_after_e : ∀ g ∈ suff_feminine, g.str ≠ [101] → agree [101] g.str = true →
    3 ≤ g.str.length
      ∧ (g.str.getD 1 0 = 117
        ∨ (g.str.getD 1 0 = 115 ∧ (g.str.getD 2 0 = 101 ∨ g.str.getD 2 0 = 115))) := by
  decide

theorem catalog_entry_eq : ∀ f ∈ suff_feminine, f = .mk f.str suff_plural_nonbinary := by
  simp [suff_feminine, suffix.str]

/-- The entry `e` and a longer entry do not both match. -/
theorem e_entry_excludes (alpha : Nat → Bool) (h : AlphaBasic alpha) (s : Buf)
    (p max sep : Nat) (hsep : sep = 45 ∨ sep = 46 ∨ sep = 183)
    (f g : suffix) (hf : f ∈ suff_feminine) (hg : g ∈ suff_feminine)
    (hfe : f.str = [101]) (hge : g.str ≠ [101]) (x y : Nat)
    (hx : match_suff alpha s f p max sep = some x)
    (hy : match_suff alpha s g p max sep = some y) : False := by
  obtain ⟨hlen, hlit⟩ := match_suff_literal_str alpha s g p max sep y hy
  obtain ⟨_, hlitf⟩ := match_suff_literal_str alpha s f p max sep x hx
  have hag : agree [101] g.str = true := by
    rw [← hfe]; exact literal_eq_agree s p _ _ hlitf hlit
  obtain ⟨h3, hnext⟩ := catalog_after_e g hg hge hag
  have a1 : s (p + 1) = g.str.getD 1 0 := by
    rw [literal_eq_apply s p g.str hlit 1 (by omega)]
    exact (List.getD_eq_getElem _ _ (by omega)).symm
  have a2 : s (p + 2) = g.str.getD 2 0 := by
    rw [literal_eq_apply s p g.str hlit 2 (by omega)]
    exact (List.getD_eq_getElem _ _ (by omega)).symm
  have hnone := e_entry_none alpha s p max sep (by omega) (by rw [a1, a2]; exact hnext)
    (h.1 117 (by omega) (by omega)) (h.1 115 (by omega) (by omega))
    (h.1 101 (by omega) (by omega)) hsep
  rw [catalog_entry_eq f hf, hfe, hnone] at hx
  simp at hx

theorem catalog_match_unique (alpha : Nat → Bool) (h : AlphaBasic alpha) (s : Buf)
    (p max sep : Nat) (hsep : sep = 45 ∨ sep = 46 ∨ sep = 183)
    (f g : suffix) (hf : f ∈ suff_feminine) (hg : g ∈ suff_feminine) (x y : Nat)
    (hx : match_suff alpha s f p max sep = some x)
    (hy : match_suff alpha s g p max sep = some y) : f = g := by
  have hstr : f.str = g.str := by
    obtain ⟨_, hlf⟩ := match_suff_literal_str alpha s f p max sep x hx
    obtain ⟨_, hlg⟩ := match_suff_literal_str alpha s g p max sep y hy
    rcases catalog_agree f hf g hg (literal_eq_agree s p _ _ hlf hlg) with e | e | e
    · exact e
    · by_cases hge : g.str = [101]
      · rw [e, hge]
      · exact (e_entry_excludes alpha h s p max sep hsep f g hf hg e hge x y hx hy).elim
    · by_cases hfe : f.str = [101]
      · rw [e, hfe]
      · exact (e_entry_excludes alpha h s p max sep hsep g f hg hf e hfe y x hy hx).elim
  rw [catalog_entry_eq f hf, catalog_entry_eq g hg, hstr]

theorem is_incl_suff_loop_of_match (alpha : Nat → Bool) (s : Buf) (p len sep : Nat)
    (l : List suffix)
    (huniq : ∀ f ∈ l, ∀ g ∈ l, ∀ x y, match_suff alpha s f (p + 1) len sep = some x →
      match_suff alpha s g (p + 1) len sep = some y → f = g)
    (f : suffix) (hf : f ∈ l) (x : Nat)
    (hx : match_suff alpha s f (p + 1) len sep = some x) :
    is_incl_suff_loop alpha s p len sep l = x - p := by
  induction l with
  | nil => simp at hf
  | cons g l ih =>
    rw [is_incl_suff_loop]
    split
    · rename_i y hy
      have := huniq f hf g (List.mem_cons_self _ _) x y hx hy
      subst this
      rw [hx] at hy
      have : x = y := by simpa using hy
      rw [this]
    · rename_i hy
      rcases List.mem_cons.1 hf with e | hfl
      · subst e; rw [hx] at hy; simp at hy
      · exact ih (fun a ha b hb => huniq a (List.mem_cons_of_mem _ ha) b
          (List.mem_cons_of_mem _ hb)) hfl

theorem is_incl_suff_loop_of_none (alpha : Nat → Bool) (s : Buf) (p len sep : Nat)
    (l : List suffix) (h : ∀ f ∈ l, match_suff alpha s f (p + 1) len sep = none) :
    is_incl_suff_loop alpha s p len sep l = 0 := by
  induction l with
  | nil => rfl
  | cons g l ih =>
    rw [is_incl_suff_loop, h g (List.mem_cons_self _ _)]
    exact ih (fun f hf => h f (List.mem_cons_of_mem _ hf))

/-! ### What a matched span and the output are made of -/

mutual
theorem match_suff_span (alpha : Nat → Bool) (s : Buf) (q : Nat → Bool) :
    ∀ (f : suffix) (p max sep x : Nat), f.all_chars q = true → q sep = true →
      match_suff alpha s f p max sep = some x → ∀ j, p ≤ j → j < x → q (s j) = true
  | .mk text opts, p, max, sep, x, hq, hsep, hx => by
    simp only [suffix.all_chars, Bool.and_eq_true] at hq
    simp only [match_suff] at hx
    have hlitq : literal_eq s p text = true → ∀ j, p ≤ j → j < p + text.length →
        q (s j) = true := by
      intro hlit j h1 h2
      have := literal_eq_apply s p text hlit (j - p) (by omega)
      have e : p + (j - p) = j := by omega
      rw [e] at this
      rw [this]
      exact List.all_eq_true.1 hq.1 _ (List.getElem_mem _)
    split at hx
    · simp at hx
    · split at hx
      · simp at hx
      · rename_i hlit
        have hlit : literal_eq s p text = true := by simpa using hlit
        split at hx
        · have : x = p + text.length := by simpa using hx.symm
          subst this
          exact hlitq hlit
        · split at hx
          · have : x = p + text.length := by simpa using hx.symm
            subst this
            exact hlitq hlit
          · split at hx
            · rename_i hc
              intro j h1 h2
              rcases match_opts_span alpha s q opts (p + (text.length + 1))
                (max - (text.length + 1)) sep (some (p + text.length)) x hq.2 hsep hx
                with h | h
              · have : x = p + text.length := by simpa using h.symm
                subst this
                exact hlitq hlit j h1 h2
              · by_cases hj : j < p + text.length
                · exact hlitq hlit j h1 hj
                · by_cases hj2 : j = p + text.length
                  · rw [hj2, hc]; exact hsep
                  · exact h j (by omega) h2
            · intro j h1 h2
              rcases match_opts_span alpha s q opts (p + text.length)
                (max - text.length) sep none x hq.2 hsep hx with h | h
              · simp at h
              · by_cases hj : j < p + text.length
                · exact hlitq hlit j h1 hj
                · exact h j (by omega) h2
theorem match_opts_span (alpha : Nat → Bool) (s : Buf) (q : Nat → Bool) :
    ∀ (os : List suffix) (p max sep : Nat) (e : Option Nat) (x : Nat),
      all_chars_list q os = true → q sep = true →
      match_opts alpha s os p max sep e = some x →
      e = some x ∨ ∀ j, p ≤ j → j < x → q (s j) = true
  | [], _, _, _, _, _, _, _, hx => by
    simp only [match_opts] at hx
    exact Or.inl hx
  | o :: os, p, max, sep, e, x, hq, hsep, hx => by
    simp only [all_chars_list, Bool.and_eq_true] at hq
    simp only [match_opts] at hx
    split at hx
    · rename_i y hy
      have : x = y := by simpa using hx.symm
      subst this
      exact Or.inr (match_suff_span alpha s q o p max sep x hq.1 hsep hy)
    · exact match_opts_span alpha s q os p max sep e x hq.2 hsep hx
end

theorem is_incl_suff_span (alpha : Nat → Bool) (s : Buf) (p len sep : Nat)
    (hsep : sep = 45 ∨ sep = 46 ∨ sep = 183) :
    ∀ j, p + 1 ≤ j → j < p + is_incl_suff alpha s p len sep → span_char (s j) = true := by
  have hq : span_char sep = true := by
    rcases hsep with rfl | rfl | rfl <;> decide
  unfold is_incl_suff
  have hcat : ∀ f ∈ suff_feminine, f.all_chars span_char = true := by decide
  generalize suff_feminine = fs at hcat
  induction fs with
  | nil => intro j h1 h2; simp [is_incl_suff_loop] at h2; omega
  | cons f fs ih =>
    rw [is_incl_suff_loop]
    split
    · rename_i x hx
      intro j h1 h2
      exact match_suff_span alpha s span_char f (p + 1) len sep x
        (hcat f (List.mem_cons_self _ _)) hq hx j h1 (by omega)
    · exact ih (fun g hg => hcat g (List.mem_cons_of_mem _ hg))

theorem reemit_out_mem (s : Buf) (n i c : Nat) (h : c ∈ reemit_out s n i) :
    ∃ j, i ≤ j ∧ j < i + n ∧ s j = c ∧ ¬(c = 183 ∨ c = 45 ∨ c = 46 ∨ c = 120) := by
  induction n generalizing i with
  | zero => simp [reemit_out] at h
  | succ n ih =>
    rw [reemit_out] at h
    split at h
    · obtain ⟨j, h1, h2, h3, h4⟩ := ih (i + 1) h
      exact ⟨j, by omega, by omega, h3, h4⟩
    · rename_i hskip
      rcases List.mem_cons.1 h with e | h
      · exact ⟨i, le_refl _, by omega, e.symm, by rw [e]; exact hskip⟩
      · obtain ⟨j, h1, h2, h3, h4⟩ := ih (i + 1) h
        exact ⟨j, by omega, by omega, h3, h4⟩

/-- The inner loop of `replace_chars` copies catalog letters only. -/
theorem reemit_out_catalog (alpha : Nat → Bool) (s : Buf) (len i : Nat)
    (hc : s i = 45 ∨ s i = 46 ∨ s i = 183) :
    ∀ c ∈ reemit_out s (is_incl_suff alpha s i (len - i) (s i)) i, catalog_letter c = true := by
  intro c hmem
  obtain ⟨j, h1, h2, h3, h4⟩ := reemit_out_mem s _ i c hmem
  by_cases hj : j = i
  · subst hj
    rw [h3] at hc
    exact absurd (by rcases hc with e | e | e <;> simp [e]) h4
  · have := is_incl_suff_span alpha s i (len - i) (s i) hc j (by omega) h2
    rw [h3] at this
    simp only [span_char, Bool.or_eq_true, beq_iff_eq] at this
    simp only [not_or] at h4
    rcases this with (((h | h) | h) | h) | h
    · exact h
    · exact absurd h h4.2.2.2
    · exact absurd h h4.2.1
    · exact absurd h h4.2.2.1
    · exact absurd h h4.1

theorem catalog_letter_not_rewritten (c : Nat) (h : catalog_letter c = true) :
    rewritten c = false := by
  have e : cp "etusèrÈicalnvof"
      = [101, 116, 117, 115, 232, 114, 200, 105, 99, 97, 108, 110, 118, 111, 102] := by
    decide
  simp only [catalog_letter, e, List.mem_cons, List.mem_singleton, List.not_mem_nil,
    or_false, decide_eq_true_eq] at h
  rcases h with h | h | h | h | h | h | h | h | h | h | h | h | h | h | h <;> subst h <;> decide

theorem body_out_not_rewritten (alpha : Nat → Bool) (s : Buf) (len i : Nat) :
    ∀ c ∈ (body_out alpha s len i).1, rewritten c = false := by
  unfold body_out
  simp only
  split_ifs with h1 h2 h3 h4 h5 h6 h7 h8
  · simp
  · simp; decide
  · simp; decide
  · simp; decide
  · intro c hc
    rcases List.mem_cons.1 hc with e | hc
    · rw [e]; decide
    · exact catalog_letter_not_rewritten c (reemit_out_catalog alpha s len i h5 c hc)
  · intro c hc
    have : c = s i := by simpa using hc
    rw [this]
    rcases h5 with e | e | e <;> rw [e] <;> decide
  · intro c hc
    simp only [List.mem_cons, List.mem_singleton, List.not_mem_nil, or_false] at hc
    rcases hc with e | e <;> rw [e] <;> decide
  · intro c hc
    simp only [List.mem_cons, List.mem_singleton, List.not_mem_nil, or_false] at hc
    rcases hc with e | e <;> rw [e] <;> decide
  · intro c hc
    have : c = s i := by simpa using hc
    rw [this]
    simp only [rewritten, List.mem_cons, List.mem_singleton, List.not_mem_nil, or_false,
      decide_eq_false_iff_not]
    omega

theorem replace_out_not_rewritten (alpha : Nat → Bool) (s : Buf) (len fuel : Nat) :
    ∀ i out, replace_out alpha s len fuel i = some out → ∀ c ∈ out, rewritten c = false := by
  induction fuel with
  | zero =>
    intro i out h
    rw [replace_out] at h
    split at h
    · simp at h
    · have : out = [] := by simpa using h.symm
      subst this
      simp
  | succ fuel ih =>
    intro i out h
    rw [replace_out] at h
    split at h
    · cases hr : replace_out alpha s len fuel ((body_out alpha s len i).2 + 1) with
      | none => rw [hr] at h; simp at h
      | some rest =>
        rw [hr] at h
        have : out = (body_out alpha s len i).1 ++ rest := by simpa using h.symm
        subst this
        intro c hc
        rcases List.mem_append.1 hc with hc | hc
        · exact body_out_not_rewritten alpha s len i c hc
        · exact ih _ rest hr c hc
    · have : out = [] := by simpa using h.symm
      subst this
      simp

/-! ### The range of `int` -/

theorem length_flatMap_ligatures (n : Nat) :
    ((List.replicate n 339).flatMap rewrite_char).length = 2 * n := by
  induction n with
  | zero => rfl
  | succ n ih =>
    rw [List.replicate_succ, List.flatMap_cons, List.length_append, ih]
    have e : rewrite_char 339 = [111, 101] := by decide
    rw [e]
    simp only [List.length_cons, List.length_nil]
    omega

theorem replace_out_of_ligatures (alpha : Nat → Bool) (n : Nat) :
    replace_out alpha (ofList (List.replicate n 339)) n n 0
      = some ((List.replicate n 339).flatMap rewrite_char) := by
  have h := replace_out_no_sep alpha (List.replicate n 339)
    (fun c hc => by
      have : c = 339 := (List.mem_replicate.1 hc).2
      subst this
      decide)
    n 0 (by rw [List.length_replicate]; omega)
  rw [List.length_replicate, List.drop_zero] at h
  exact h

theorem replace_chars_of_ligatures (alpha : Nat → Bool) (junk : Buf) (n : Nat) :
    (replace_chars alpha (ofList (List.replicate n 339)) junk n).map (fun r => r.2)
      = some (2 * n) := by
  rw [replace_chars_eq, replace_out_of_ligatures]
  simp only [Option.map_some', length_flatMap_ligatures]

/-- Past `2^30` ligatures the write index of `replace_chars` leaves the range of
`int`. -/
theorem normalize_of_ligatures (alpha : Nat → Bool) (junk : Buf) (n : Nat)
    (h1 : 1073741824 ≤ n) (h2 : n ≤ INT_MAX) :
    normalize alpha junk (List.replicate n 339) = none := by
  have g1 : ¬(n = INT_MAX ∧ n ≠ INT_MAX) := fun h => h.2 h.1
  have g2 : INT_MAX < 2 * n := by unfold INT_MAX; omega
  unfold normalize
  simp only [List.length_replicate]
  rw [int_of_ssize_of_le n h2, Int.toNat_ofNat, if_neg g1, replace_chars_eq,
    replace_out_of_ligatures]
  simp only [Option.map_some', length_flatMap_ligatures, g2, if_true]

/-- When `(int)len` is not positive the loops do not run. -/
theorem normalize_of_negative_int (alpha : Nat → Bool) (junk : Buf) (input : List Nat)
    (h : int_of_ssize input.length ≤ 0) : normalize alpha junk input = some [] := by
  have e : (int_of_ssize input.length).toNat = 0 := Int.toNat_eq_zero.2 h
  unfold normalize
  simp [e, INT_MAX, replace_chars, replace_loop, reduce_repeated_letters, reduce_loop, toList]

/-! ### The second pass of the rewriter

The rewriter is run on a text written for an input: the text it wrote itself, or that
text after the reducer. `scan_out` is that text, chunk by chunk, and `rewrites_from`
keeps the two scans in step: the second scan emits, chunk by chunk, what was written
(`scan_out_rewritten`). The matcher of the second pass is compared with the one of the
first: a pattern that did not match does not match (`match_suff_none_rewritten`), and
a span that was rewritten to `·` and its letters is found again (`body_out_of_span`). -/

theorem match_suff_nul (alpha : Nat → Bool) (s : Buf) (e : Nat) (he : s e = 0)
    (text : List Nat) (opts : List suffix) (p max sep : Nat)
    (hnz : text.all (fun c => c != 0) = true) (hp : p ≤ e) (hmax : p + max = e + 1) :
    match_suff alpha s (.mk text opts) p max sep
      = if literal_eq s p text = true then
          (if !iswordch alpha (s (p + text.length)) && s (p + text.length) != sep then
            some (p + text.length)
          else if s (p + text.length) = sep then
            match_opts alpha s opts (p + (text.length + 1)) (max - (text.length + 1)) sep
              (some (p + text.length))
          else match_opts alpha s opts (p + text.length) (max - text.length) sep none)
        else none := by
  by_cases hlit : literal_eq s p text = true
  · have hend : p + text.length ≤ e := by
      by_contra hcon
      have hj : e - p < text.length := by omega
      have := literal_eq_apply s p text hlit (e - p) hj
      have e1 : p + (e - p) = e := by omega
      rw [e1, he] at this
      have hmem := List.all_eq_true.1 hnz _ (List.getElem_mem hj)
      rw [← this] at hmem
      simp at hmem
    rw [if_pos hlit]
    exact match_suff_after_literal alpha s text opts p max sep (by omega) hlit
  · rw [if_neg hlit]
    have hlit : literal_eq s p text = false := by simpa using hlit
    simp [match_suff, hlit]

theorem literal_eq_le (s : Buf) (p e : Nat) (text : List Nat) (he : s e = 0) (hp : p ≤ e)
    (hnz : text.all (fun c => c != 0) = true) (h : literal_eq s p text = true) :
    p + text.length ≤ e := by
  by_contra hcon
  have hj : e - p < text.length := by omega
  have := literal_eq_apply s p text h (e - p) hj
  have e1 : p + (e - p) = e := by omega
  rw [e1, he] at this
  have hmem := List.all_eq_true.1 hnz _ (List.getElem_mem hj)
  rw [← this] at hmem
  simp at hmem

theorem is_incl_suff_loop_some (alpha : Nat → Bool) (s : Buf) (p len sep : Nat)
    (l : List suffix) (h : is_incl_suff_loop alpha s p len sep l ≠ 0) :
    ∃ f ∈ l, ∃ x, match_suff alpha s f (p + 1) len sep = some x
      ∧ is_incl_suff_loop alpha s p len sep l = x - p := by
  induction l with
  | nil => simp [is_incl_suff_loop] at h
  | cons g l ih =>
    rw [is_incl_suff_loop] at h ⊢
    cases hg : match_suff alpha s g (p + 1) len sep with
    | some x => exact ⟨g, List.mem_cons_self _ _, x, hg, rfl⟩
    | none =>
      rw [hg] at h
      obtain ⟨f, hf, x, hx, e⟩ := ih h
      exact ⟨f, List.mem_cons_of_mem _ hf, x, hx, e⟩

theorem catalog_first_letter : ∀ f ∈ suff_feminine,
    1 ≤ f.str.length ∧ f.str.getD 0 0 ≠ 45 ∧ f.str.getD 0 0 ≠ 46 ∧ f.str.getD 0 0 ≠ 183 := by
  decide

/-- A separator that starts a suffix is followed by a letter. -/
theorem is_incl_suff_next (alpha : Nat → Bool) (s : Buf) (p len sep : Nat)
    (h : is_incl_suff alpha s p len sep ≠ 0) :
    s (p + 1) ≠ 45 ∧ s (p + 1) ≠ 46 ∧ s (p + 1) ≠ 183 := by
  obtain ⟨g, hg, x, hm, _⟩ := is_incl_suff_loop_some alpha s p len sep suff_feminine h
  obtain ⟨c1, c2, c3, c4⟩ := catalog_first_letter g hg
  have hlit := (match_suff_literal_str alpha s g (p + 1) len sep x hm).2
  have := literal_eq_apply s (p + 1) g.str hlit 0 (by omega)
  rw [Nat.add_zero] at this
  have e : s (p + 1) = g.str.getD 0 0 := by
    rw [this]; exact (List.getD_eq_getElem _ _ (by omega)).symm
  rw [e]
  exact ⟨c2, c3, c4⟩

theorem chunk_out_of_not_dots (alpha : Nat → Bool) (cl : Bool) (s : Buf) (len i : Nat)
    (h : (cl && dots_before_span alpha s len i) = false) :
    chunk_out alpha cl s len i = body_out alpha s len i := by
  unfold chunk_out
  rw [h]
  simp

theorem dots_before_span_spec (alpha : Nat → Bool) (s : Buf) (len i : Nat)
    (h : dots_before_span alpha s len i = true) :
    s i = 183 ∧ s (i + 1) = 183 ∧ (s (i + 2) = 45 ∨ s (i + 2) = 46)
    ∧ is_incl_suff alpha s (i + 2) (len - (i + 2)) (s (i + 2)) ≠ 0 := by
  simp only [dots_before_span, Bool.and_eq_true, Bool.or_eq_true, beq_iff_eq, bne_iff_ne,
    ne_eq] at h
  exact ⟨h.1.1.1, h.1.1.2, h.1.2, h.2⟩

theorem dots_before_span_of_not_dot (alpha : Nat → Bool) (cl : Bool) (s : Buf) (len i : Nat)
    (h : s i ≠ 183 ∨ s (i + 1) ≠ 183) :
    (cl && dots_before_span alpha s len i) = false := by
  cases hd : dots_before_span alpha s len i with
  | false => simp
  | true =>
    obtain ⟨h1, h2, _⟩ := dots_before_span_spec alpha s len i hd
    rcases h with g | g
    · exact absurd h1 g
    · exact absurd h2 g

theorem chunk_out_advance (alpha : Nat → Bool) (cl : Bool) (s : Buf) (len i : Nat) :
    i ≤ (chunk_out alpha cl s len i).2 := by
  unfold chunk_out
  split
  · rename_i h
    simp only [Bool.and_eq_true] at h
    obtain ⟨_, _, _, h0⟩ := dots_before_span_spec alpha s len i h.2
    simp only
    omega
  · exact body_out_advance alpha s len i

theorem rewrites_from_nul (alpha : Nat → Bool) (cl : Bool) (s : Buf) (len : Nat) (t : Buf)
    (tlen i j : Nat) (h : rewrites_from alpha cl s len t tlen i j) : t tlen = 0 ∧ j ≤ tlen := by
  obtain ⟨fuel, out, _, _, ht, hl⟩ := h
  refine ⟨?_, by omega⟩
  rw [← hl, ht, List.getD_eq_default _ _ (le_refl _)]

theorem rewrites_from_end (alpha : Nat → Bool) (cl : Bool) (s : Buf) (len : Nat) (t : Buf)
    (tlen i j : Nat) (h : rewrites_from alpha cl s len t tlen i j) (hi : len ≤ i) :
    t j = 0 ∧ j = tlen := by
  obtain ⟨fuel, out, _, ho, ht, hl⟩ := h
  have hn : ¬ i < len := by omega
  have : out = [] := by
    cases fuel with
    | zero => rw [scan_out, if_neg hn] at ho; simpa using ho.symm
    | succ f => rw [scan_out, if_neg hn] at ho; simpa using ho.symm
  subst this
  refine ⟨?_, by simpa using hl⟩
  simpa using ht 0

theorem rewrites_from_step (alpha : Nat → Bool) (cl : Bool) (s : Buf) (len : Nat) (t : Buf)
    (tlen i j : Nat) (h : rewrites_from alpha cl s len t tlen i j) (hi : i < len) :
    (∀ m, m < (chunk_out alpha cl s len i).1.length →
        t (j + m) = (chunk_out alpha cl s len i).1.getD m 0)
    ∧ rewrites_from alpha cl s len t tlen ((chunk_out alpha cl s len i).2 + 1)
        (j + (chunk_out alpha cl s len i).1.length) := by
  obtain ⟨fuel, out, hf, ho, ht, hl⟩ := h
  cases fuel with
  | zero => omega
  | succ f =>
    rw [scan_out, if_pos hi] at ho
    cases hr : scan_out alpha cl s len f ((chunk_out alpha cl s len i).2 + 1) with
    | none => rw [hr] at ho; simp at ho
    | some rest =>
      rw [hr] at ho
      have e : out = (chunk_out alpha cl s len i).1 ++ rest := by simpa using ho.symm
      subst e
      have hadv := chunk_out_advance alpha cl s len i
      refine ⟨fun m hm => ?_, f, rest, by omega, hr, fun m => ?_, ?_⟩
      · rw [ht, List.getD_append _ _ _ _ hm]
      · rw [Nat.add_assoc, ht, List.getD_append_right _ _ _ _ (by omega)]
        congr 1
        omega
      · rw [List.length_append] at hl
        omega

theorem rewrite_char_of_not_rewritten (c : Nat) (h : rewritten c = false) :
    rewrite_char c = [c] := by
  simp only [rewritten, List.mem_cons, List.mem_singleton, List.not_mem_nil, or_false,
    decide_eq_false_iff_not, not_or] at h
  unfold rewrite_char
  simp only [List.mem_cons, List.mem_singleton, List.not_mem_nil, or_false]
  split_ifs <;> first | rfl | omega

/-- At a character that is no separator and that the rewriter keeps, the rewritten
text goes on with that character. -/
theorem rewrites_from_plain (alpha : Nat → Bool) (cl : Bool) (s : Buf) (len : Nat) (t : Buf)
    (tlen i j : Nat) (h : rewrites_from alpha cl s len t tlen i j) (hi : i < len)
    (hrw : rewritten (s i) = false) (hc : s i ≠ 45 ∧ s i ≠ 46 ∧ s i ≠ 183) :
    t j = s i ∧ rewrites_from alpha cl s len t tlen (i + 1) (j + 1) := by
  have hb : chunk_out alpha cl s len i = ([s i], i) := by
    rw [chunk_out_of_not_dots alpha cl s len i
        (dots_before_span_of_not_dot alpha cl s len i (Or.inl hc.2.2)),
      body_out_of_not_sep alpha s len i hc, rewrite_char_of_not_rewritten _ hrw]
  obtain ⟨h1, h2⟩ := rewrites_from_step alpha cl s len t tlen i j h hi
  rw [hb] at h1 h2
  exact ⟨by simpa using h1 0 (by simp), h2⟩

theorem body_out_of_sep (alpha : Nat → Bool) (s : Buf) (len i : Nat)
    (hc : s i = 45 ∨ s i = 46 ∨ s i = 183) :
    body_out alpha s len i
      = if is_incl_suff alpha s i (len - i) (s i) ≠ 0 then
          (183 :: reemit_out s (is_incl_suff alpha s i (len - i) (s i)) i,
            i + is_incl_suff alpha s i (len - i) (s i) - 1)
        else ([s i], i) := by
  unfold body_out
  rcases hc with e | e | e <;> simp [e]

/-- At a separator that starts no suffix the rewritten text goes on with it. -/
theorem rewrites_from_sep_none (alpha : Nat → Bool) (cl : Bool) (s : Buf) (len : Nat) (t : Buf)
    (tlen i j : Nat) (h : rewrites_from alpha cl s len t tlen i j) (hi : i < len)
    (hc : s i = 45 ∨ s i = 46 ∨ s i = 183)
    (h0 : is_incl_suff alpha s i (len - i) (s i) = 0)
    (hd : (cl && dots_before_span alpha s len i) = false) :
    t j = s i ∧ rewrites_from alpha cl s len t tlen (i + 1) (j + 1) := by
  have hb : chunk_out alpha cl s len i = ([s i], i) := by
    rw [chunk_out_of_not_dots alpha cl s len i hd, body_out_of_sep alpha s len i hc, h0]; simp
  obtain ⟨h1, h2⟩ := rewrites_from_step alpha cl s len t tlen i j h hi
  rw [hb] at h1 h2
  exact ⟨by simpa using h1 0 (by simp), h2⟩

/-- At a separator that starts a suffix the rewritten text goes on with `·` and the
letters of the span. -/
theorem rewrites_from_sep_some (alpha : Nat → Bool) (cl : Bool) (s : Buf) (len : Nat) (t : Buf)
    (tlen i j : Nat) (h : rewrites_from alpha cl s len t tlen i j) (hi : i < len)
    (hc : s i = 45 ∨ s i = 46 ∨ s i = 183)
    (h0 : is_incl_suff alpha s i (len - i) (s i) ≠ 0) :
    t j = 183
    ∧ (∀ m, m < (reemit_out s (is_incl_suff alpha s i (len - i) (s i)) i).length →
        t (j + 1 + m) = (reemit_out s (is_incl_suff alpha s i (len - i) (s i)) i).getD m 0)
    ∧ rewrites_from alpha cl s len t tlen (i + is_incl_suff alpha s i (len - i) (s i))
        (j + 1 + (reemit_out s (is_incl_suff alpha s i (len - i) (s i)) i).length) := by
  have hb : chunk_out alpha cl s len i
      = (183 :: reemit_out s (is_incl_suff alpha s i (len - i) (s i)) i,
          i + is_incl_suff alpha s i (len - i) (s i) - 1) := by
    rw [chunk_out_of_not_dots alpha cl s len i
        (dots_before_span_of_not_dot alpha cl s len i
          (Or.inr (is_incl_suff_next alpha s i (len - i) (s i) h0).2.2)),
      body_out_of_sep alpha s len i hc, if_pos h0]
  obtain ⟨h1, h2⟩ := rewrites_from_step alpha cl s len t tlen i j h hi
  rw [hb] at h1 h2
  refine ⟨by simpa using h1 0 (by simp), fun m hm => ?_, ?_⟩
  · have := h1 (m + 1) (by simp only [List.length_cons]; omega)
    rw [← Nat.add_assoc, Nat.add_right_comm] at this
    simpa using this
  · simp only [List.length_cons] at h2
    have e1 : i + is_incl_suff alpha s i (len - i) (s i) - 1 + 1
        = i + is_incl_suff alpha s i (len - i) (s i) := by omega
    have e2 : j + ((reemit_out s (is_incl_suff alpha s i (len - i) (s i)) i).length + 1)
        = j + 1 + (reemit_out s (is_incl_suff alpha s i (len - i) (s i)) i).length := by omega
    rw [e1, e2] at h2
    exact h2

/-- At two middle dots before a span the collapsed text goes on with one `·` and the
letters of the span. -/
theorem rewrites_from_dots (alpha : Nat → Bool) (cl : Bool) (s : Buf) (len : Nat) (t : Buf)
    (tlen i j : Nat) (h : rewrites_from alpha cl s len t tlen i j) (hi : i < len)
    (hd : (cl && dots_before_span alpha s len i) = true) :
    t j = 183
    ∧ (∀ m, m < (reemit_out s (is_incl_suff alpha s (i + 2) (len - (i + 2)) (s (i + 2)))
          (i + 2)).length →
        t (j + 1 + m)
          = (reemit_out s (is_incl_suff alpha s (i + 2) (len - (i + 2)) (s (i + 2)))
              (i + 2)).getD m 0)
    ∧ rewrites_from alpha cl s len t tlen
        (i + 2 + is_incl_suff alpha s (i + 2) (len - (i + 2)) (s (i + 2)))
        (j + 1 + (reemit_out s (is_incl_suff alpha s (i + 2) (len - (i + 2)) (s (i + 2)))
          (i + 2)).length) := by
  have hb : chunk_out alpha cl s len i
      = (183 :: reemit_out s (is_incl_suff alpha s (i + 2) (len - (i + 2)) (s (i + 2)))
            (i + 2),
          i + 2 + is_incl_suff alpha s (i + 2) (len - (i + 2)) (s (i + 2)) - 1) := by
    unfold chunk_out
    rw [if_pos hd]
  have h0 : is_incl_suff alpha s (i + 2) (len - (i + 2)) (s (i + 2)) ≠ 0 := by
    simp only [Bool.and_eq_true] at hd
    exact (dots_before_span_spec alpha s len i hd.2).2.2.2
  obtain ⟨h1, h2⟩ := rewrites_from_step alpha cl s len t tlen i j h hi
  rw [hb] at h1 h2
  refine ⟨by simpa using h1 0 (by simp), fun m hm => ?_, ?_⟩
  · have := h1 (m + 1) (by simp only [List.length_cons]; omega)
    rw [← Nat.add_assoc, Nat.add_right_comm] at this
    simpa using this
  · simp only [List.length_cons] at h2
    have e1 : i + 2 + is_incl_suff alpha s (i + 2) (len - (i + 2)) (s (i + 2)) - 1 + 1
        = i + 2 + is_incl_suff alpha s (i + 2) (len - (i + 2)) (s (i + 2)) := by omega
    have e2 : j + ((reemit_out s (is_incl_suff alpha s (i + 2) (len - (i + 2)) (s (i + 2)))
          (i + 2)).length + 1)
        = j + 1 + (reemit_out s (is_incl_suff alpha s (i + 2) (len - (i + 2)) (s (i + 2)))
          (i + 2)).length := by omega
    rw [e1, e2] at h2
    exact h2

theorem rewrites_from_head_sep (alpha : Nat → Bool) (cl : Bool) (s : Buf) (len : Nat) (t : Buf)
    (tlen i j : Nat) (h : rewrites_from alpha cl s len t tlen i j) (hi : i < len)
    (hc : s i = 45 ∨ s i = 46 ∨ s i = 183) : t j = s i ∨ t j = 183 := by
  by_cases h0 : is_incl_suff alpha s i (len - i) (s i) = 0
  · cases hd : (cl && dots_before_span alpha s len i) with
    | false => exact Or.inl (rewrites_from_sep_none alpha cl s len t tlen i j h hi hc h0 hd).1
    | true => exact Or.inr (rewrites_from_dots alpha cl s len t tlen i j h hi hd).1
  · exact Or.inr (rewrites_from_sep_some alpha cl s len t tlen i j h hi hc h0).1

theorem plain_letter_spec (c : Nat) (h : plain_letter c = true) :
    c ≠ 0 ∧ c ≠ 45 ∧ c ≠ 46 ∧ c ≠ 183 ∧ rewritten c = false := by
  have : (((¬c = 0 ∧ ¬c = 45) ∧ ¬c = 46) ∧ ¬c = 183) ∧ rewritten c = false := by
    simpa [plain_letter] using h
  exact ⟨this.1.1.1.1, this.1.1.1.2, this.1.1.2, this.1.2, this.2⟩

/-- A literal of plain letters matches in the rewritten text where it matches in the
input, and the two texts stay in step over it. -/
theorem literal_eq_rewritten (alpha : Nat → Bool) (cl : Bool) (s : Buf) (len : Nat) (t : Buf)
    (tlen : Nat) (hs0 : ∀ k, len ≤ k → s k = 0) (hrw : ∀ k, rewritten (s k) = false)
    (text : List Nat) (htext : text.all plain_letter = true) :
    ∀ p q, rewrites_from alpha cl s len t tlen p q →
      literal_eq t q text = literal_eq s p text
      ∧ (literal_eq s p text = true →
          rewrites_from alpha cl s len t tlen (p + text.length) (q + text.length)) := by
  induction text with
  | nil => intro p q h; exact ⟨rfl, fun _ => h⟩
  | cons c cs ih =>
    intro p q h
    simp only [List.all_cons, Bool.and_eq_true] at htext
    obtain ⟨c0, c1, c2, c3, _⟩ := plain_letter_spec c htext.1
    by_cases hp : p < len
    · by_cases hsep : s p = 45 ∨ s p = 46 ∨ s p = 183
      · have a1 : s p ≠ c := by rcases hsep with e | e | e <;> rw [e] <;> exact Ne.symm ‹_›
        have a2 : t q ≠ c := by
          rcases rewrites_from_head_sep alpha cl s len t tlen p q h hp hsep with e | e
          · rw [e]; exact a1
          · rw [e]; exact Ne.symm c3
        simp [literal_eq, a1, a2]
      · have hsep2 : s p ≠ 45 ∧ s p ≠ 46 ∧ s p ≠ 183 := by
          refine ⟨fun e => hsep (Or.inl e), fun e => hsep (Or.inr (Or.inl e)),
            fun e => hsep (Or.inr (Or.inr e))⟩
        obtain ⟨h1, h2⟩ := rewrites_from_plain alpha cl s len t tlen p q h hp (hrw p) hsep2
        obtain ⟨g1, g2⟩ := ih htext.2 (p + 1) (q + 1) h2
        rw [literal_eq, literal_eq, h1, g1]
        refine ⟨rfl, fun hl => ?_⟩
        by_cases hc : s p = c
        · simp only [hc, bne_self_eq_false, Bool.false_eq_true, if_false] at hl
          have := g2 hl
          simp only [List.length_cons]
          rw [Nat.add_assoc, Nat.add_comm 1, Nat.add_assoc q, Nat.add_comm 1] at this
          exact this
        · simp [hc] at hl
    · have a1 : s p = 0 := hs0 p (by omega)
      have a2 : t q = 0 := (rewrites_from_end alpha cl s len t tlen p q h (by omega)).1
      simp [literal_eq, a1, a2, Ne.symm c0]

theorem match_opts_endptr (alpha : Nat → Bool) (s : Buf) (os : List suffix)
    (p max sep e : Nat) : match_opts alpha s os p max sep (some e) ≠ none := by
  induction os with
  | nil => simp [match_opts]
  | cons o os ih =>
    simp only [match_opts]
    cases match_suff alpha s o p max sep with
    | some x => simp
    | none => exact ih

theorem all_nonzero_of_plain (text : List Nat) (h : text.all plain_letter = true) :
    text.all (fun c => c != 0) = true := by
  rw [List.all_eq_true] at h ⊢
  intro c hc
  have := (plain_letter_spec c (h c hc)).1
  simpa using this

theorem iswordch_zero (alpha : Nat → Bool) (h : AlphaBasic alpha) : iswordch alpha 0 = false := by
  simp [iswordch, h.2.2.2.1]

/-- A word character of the input that is read where the rewritten text is in step
is the same character there. -/
theorem rewrites_from_wordch (alpha : Nat → Bool) (cl : Bool) (h : AlphaBasic alpha) (s : Buf)
    (len : Nat) (t : Buf) (tlen : Nat) (hs0 : ∀ k, len ≤ k → s k = 0)
    (hrw : ∀ k, rewritten (s k) = false) (p q : Nat)
    (hr : rewrites_from alpha cl s len t tlen p q) (hw : iswordch alpha (s p) = true) :
    t q = s p ∧ p < len := by
  have hp : p < len := by
    by_contra hcon
    rw [hs0 p (by omega), iswordch_zero alpha h] at hw
    simp at hw
  refine ⟨?_, hp⟩
  by_cases h183 : s p = 183
  · rcases rewrites_from_head_sep alpha cl s len t tlen p q hr hp (Or.inr (Or.inr h183))
      with e | e
    · exact e
    · rw [e, h183]
  · have ha : alpha (s p) = true := by
      simp only [iswordch, Bool.or_eq_true, beq_iff_eq] at hw
      rcases hw with e | e
      · exact e
      · exact absurd e h183
    have h45 : s p ≠ 45 := by
      intro e; rw [e, h.2.2.2.2.1] at ha; simp at ha
    have h46 : s p ≠ 46 := by
      intro e; rw [e, h.2.2.2.2.2] at ha; simp at ha
    exact (rewrites_from_plain alpha cl s len t tlen p q hr hp (hrw p) ⟨h45, h46, h183⟩).1

mutual
/-- A pattern that does not match in the input does not match, with the same
separator, where the rewritten text is in step. -/
theorem match_suff_none_rewritten (alpha : Nat → Bool) (cl : Bool) (h : AlphaBasic alpha) (s : Buf)
    (len : Nat) (t : Buf) (tlen : Nat) (hs0 : ∀ k, len ≤ k → s k = 0)
    (hrw : ∀ k, rewritten (s k) = false) (sep : Nat) :
    ∀ (f : suffix) (p q maxs maxt : Nat), f.all_chars plain_letter = true →
      rewrites_from alpha cl s len t tlen p q → p ≤ len → p + maxs = len + 1 →
      q + maxt = tlen + 1 →
      match_suff alpha s f p maxs sep = none → match_suff alpha t f q maxt sep = none
  | .mk text opts, p, q, maxs, maxt, hq, hr, hp, hms, hmt, hm => by
    simp only [suffix.all_chars, Bool.and_eq_true] at hq
    obtain ⟨ht0, hqt⟩ := rewrites_from_nul alpha cl s len t tlen p q hr
    have hnz := all_nonzero_of_plain text hq.1
    obtain ⟨g1, g2⟩ := literal_eq_rewritten alpha cl s len t tlen hs0 hrw text hq.1 p q hr
    rw [match_suff_nul alpha s len (hs0 len (le_refl _)) text opts p maxs sep hnz hp hms] at hm
    rw [match_suff_nul alpha t tlen ht0 text opts q maxt sep hnz hqt hmt, g1]
    by_cases hlit : literal_eq s p text = true
    · rw [if_pos hlit] at hm ⊢
      have hr2 := g2 hlit
      have hle := literal_eq_le s p len text (hs0 len (le_refl _)) hp hnz hlit
      obtain ⟨_, hqt2⟩ := rewrites_from_nul alpha cl s len t tlen _ _ hr2
      split at hm
      · simp at hm
      · rename_i hA
        split at hm
        · exact absurd hm (match_opts_endptr alpha s opts _ _ sep _)
        · rename_i hc
          have hw : iswordch alpha (s (p + text.length)) = true := by
            cases hw : iswordch alpha (s (p + text.length)) with
            | true => rfl
            | false =>
              exfalso; apply hA
              simp [hw, hc]
          obtain ⟨e, _⟩ := rewrites_from_wordch alpha cl h s len t tlen hs0 hrw _ _ hr2 hw
          rw [e, if_neg hA, if_neg hc]
          exact match_opts_none_rewritten alpha cl h s len t tlen hs0 hrw sep opts
            (p + text.length) (q + text.length) (maxs - text.length) (maxt - text.length)
            hq.2 hr2 hle (by omega) (by omega) hm
    · rw [if_neg hlit]
theorem match_opts_none_rewritten (alpha : Nat → Bool) (cl : Bool) (h : AlphaBasic alpha) (s : Buf)
    (len : Nat) (t : Buf) (tlen : Nat) (hs0 : ∀ k, len ≤ k → s k = 0)
    (hrw : ∀ k, rewritten (s k) = false) (sep : Nat) :
    ∀ (os : List suffix) (p q maxs maxt : Nat), all_chars_list plain_letter os = true →
      rewrites_from alpha cl s len t tlen p q → p ≤ len → p + maxs = len + 1 →
      q + maxt = tlen + 1 →
      match_opts alpha s os p maxs sep none = none →
      match_opts alpha t os q maxt sep none = none
  | [], _, _, _, _, _, _, _, _, _, _ => by simp only [match_opts]
  | o :: os, p, q, maxs, maxt, hq, hr, hp, hms, hmt, hm => by
    simp only [all_chars_list, Bool.and_eq_true] at hq
    simp only [match_opts] at hm ⊢
    cases ho : match_suff alpha s o p maxs sep with
    | some x => rw [ho] at hm; simp at hm
    | none =>
      rw [ho] at hm
      rw [match_suff_none_rewritten alpha cl h s len t tlen hs0 hrw sep o p q maxs maxt
        hq.1 hr hp hms hmt ho]
      exact match_opts_none_rewritten alpha cl h s len t tlen hs0 hrw sep os p q maxs maxt
        hq.2 hr hp hms hmt hm
end

/-- C1. Suffix canonicalization: the catalog has 17 feminine entries, and for each
entry `f` and each separator `sep` among `-`, `.`, `·`, `normalize` turns
`"mot" + sep + f.text + sep + "x" + sep + "s"` into `"mot·" + f.text + "s"`, whatever
the fresh buffer held; in particular `"auteur-rice-x-s"` gives `"auteur·rices"`. -/
theorem suffix_canonicalization (alpha : Nat → Bool) (junk : Buf) (h : AlphaBasic alpha) :
    suff_feminine.length = 17
    ∧ (∀ f ∈ suff_feminine, ∀ sep ∈ [45, 46, 183],
        normalize alpha junk (cp "mot" ++ sep :: f.str ++ sep :: 120 :: sep :: [115])
          = some (cp "mot·" ++ f.str ++ [115]))
    ∧ normalize alpha junk (cp "auteur-rice-x-s") = some (cp "auteur·rices") :=
  ⟨rfl,
   fun f hf sep hsep => normalize_of_word_check alpha junk h _ _ _ (c1_check f hf sep hsep),
   normalize_of_word_check alpha junk h _ (cp "auteur·rices") _ (by decide)⟩

theorem suffix_canonicalization_witness :
    AlphaBasic latin_alpha
    ∧ normalize latin_alpha (fun _ => 0) (cp "auteur-rice-x-s") = some (cp "auteur·rices") :=
  ⟨latin_alpha_basic, (suffix_canonicalization latin_alpha (fun _ => 0) latin_alpha_basic).2.2⟩

/-- C2. A bare feminine suffix is canonicalized: for each catalog entry `f` and each
separator `sep` among `-`, `.`, `·`, `normalize` turns `"acteur" + sep + f.text` into
`"acteur·" + f.text`; in particular `"acteur.rice"` gives `"acteur·rice"`. -/
theorem bare_feminine_canonicalized (alpha : Nat → Bool) (junk : Buf)
    (h : AlphaBasic alpha) :
    (∀ f ∈ suff_feminine, ∀ sep ∈ [45, 46, 183],
        normalize alpha junk (cp "acteur" ++ sep :: f.str) = some (cp "acteur·" ++ f.str))
    ∧ normalize alpha junk (cp "acteur.rice") = some (cp "acteur·rice") :=
  ⟨fun f hf sep hsep => normalize_of_word_check alpha junk h _ _ _ (c2_check f hf sep hsep),
   normalize_of_word_check alpha junk h _ (cp "acteur·rice") _ (by decide)⟩

theorem bare_feminine_canonicalized_witness :
    AlphaBasic latin_alpha
    ∧ normalize latin_alpha (fun _ => 0) (cp "acteur.rice") = some (cp "acteur·rice") :=
  ⟨latin_alpha_basic,
   (bare_feminine_canonicalized latin_alpha (fun _ => 0) latin_alpha_basic).2⟩

/-- C3. The three spellings `"auteur-rice-x-s"`, `"auteur.ricex.s"` and
`"auteur·rice·x·s"` all normalize to `"auteur·rices"`: the marker `x` is consumed and
not emitted, with or without a separator before it. -/
theorem three_spellings (alpha : Nat → Bool) (junk : Buf) (h : AlphaBasic alpha) :
    normalize alpha junk (cp "auteur-rice-x-s") = some (cp "auteur·rices")
    ∧ normalize alpha junk (cp "auteur.ricex.s") = some (cp "auteur·rices")
    ∧ normalize alpha junk (cp "auteur·rice·x·s") = some (cp "auteur·rices") :=
  ⟨normalize_of_word_check alpha junk h _ (cp "auteur·rices") _ (by decide),
   normalize_of_word_check alpha junk h _ (cp "auteur·rices") _ (by decide),
   normalize_of_word_check alpha junk h _ (cp "auteur·rices") _ (by decide)⟩

theorem three_spellings_witness :
    AlphaBasic latin_alpha
    ∧ normalize latin_alpha (fun _ => 0) (cp "auteur.ricex.s") = some (cp "auteur·rices") :=
  ⟨latin_alpha_basic, (three_spellings latin_alpha (fun _ => 0) latin_alpha_basic).2.1⟩

/-- C4. Separators that start no suffix pass through: when `is_incl_suff` returns 0
at a `-`, `.` or `·` of the input, the loop of `replace_chars` stores that character
unchanged and goes on with the next input character; in particular `"rendez-vous"`
and `"mot-ricette"` are left as they are by `normalize`. -/
theorem separator_passes_through (alpha : Nat → Bool) (junk : Buf) (h : AlphaBasic alpha) :
    (∀ (s new : Buf) (len fuel i y : Nat), i < len →
        (s i = 45 ∨ s i = 46 ∨ s i = 183) →
        is_incl_suff alpha s i (len - i) (s i) = 0 →
        replace_loop alpha s len (fuel + 1) i new y
          = replace_loop alpha s len fuel (i + 1) (new.write y (s i)) (y + 1))
    ∧ normalize alpha junk (cp "rendez-vous") = some (cp "rendez-vous")
    ∧ normalize alpha junk (cp "mot-ricette") = some (cp "mot-ricette") := by
  refine ⟨?_, normalize_of_word_check alpha junk h _ (cp "rendez-vous") _ (by decide),
    normalize_of_word_check alpha junk h _ (cp "mot-ricette") _ (by decide)⟩
  intro s new len fuel i y hi hc h0
  rw [replace_loop, if_pos hi]
  have hb : replace_body alpha s len i new y = (i, new.write y (s i), y + 1) := by
    unfold replace_body
    simp only [h0]
    rcases hc with e | e | e <;> simp [e]
  rw [hb]

theorem separator_passes_through_witness :
    AlphaBasic latin_alpha
    ∧ is_incl_suff latin_alpha (ofList (cp "rendez-vous")) 6 (11 - 6) 45 = 0
    ∧ normalize latin_alpha (fun _ => 0) (cp "rendez-vous") = some (cp "rendez-vous") :=
  ⟨latin_alpha_basic, by decide,
   (separator_passes_through latin_alpha (fun _ => 0) latin_alpha_basic).2.1⟩

/-- C5. The reducer for runs of three agrees with its reference: when the slot
`s[len]` differs from the last character `s[len-1]` (or `len = 0`),
`reduce_repeated_letters(s, len)` returns the length of, and leaves in
`s[0..result)`, the text obtained from `s[0..len)` by replacing each maximal run of
three or more identical characters by one instance and keeping the runs of length 1
and 2; `"ouiiiiii"` gives `"oui"` and `"noon"` gives `"noon"`. -/
theorem reduce_repeated_letters_correct (s : Buf) (len : Nat)
    (h : 0 < len → s len ≠ s (len - 1)) :
    (∃ s2 len2, reduce_repeated_letters s len = some (s2, len2)
        ∧ len2 = (collapse_runs 3 (toList s len)).length
        ∧ toList s2 len2 = collapse_runs 3 (toList s len))
    ∧ (reduce_repeated_letters (ofList (cp "ouiiiiii")) 8).map (fun r => toList r.1 r.2)
        = some (cp "oui")
    ∧ (reduce_repeated_letters (ofList (cp "noon")) 4).map (fun r => toList r.1 r.2)
        = some (cp "noon") := by
  refine ⟨?_, by decide, by decide⟩
  obtain ⟨s2, len2, hred, _, hseg, _⟩ := reduce_repeated_letters_spec s len
  have hsnoc : collapse_runs 3 (seg s 0 len ++ [s len]) = collapse_runs 3 (seg s 0 len) ++ [s len] := by
    apply collapse_runs_snoc
    intro c hc
    cases len with
    | zero => simp [seg_zero] at hc
    | succ n =>
      rw [seg_getLast?] at hc
      have hc : s (0 + n) = c := by simpa using hc
      have := h (by omega)
      intro e
      apply this
      rw [← e, ← hc]
      simp
  rw [seg_snoc, seg_snoc s len, hsnoc] at hseg
  have hlist : seg s2 0 len2 = collapse_runs 3 (seg s 0 len) :=
    List.append_inj_left' hseg rfl
  refine ⟨s2, len2, hred, ?_, ?_⟩
  · rw [toList_eq_seg, ← hlist]; simp
  · rw [toList_eq_seg, toList_eq_seg, hlist]

theorem reduce_repeated_letters_correct_witness :
    (0 < 8 → ofList (cp "ouiiiiii") 8 ≠ ofList (cp "ouiiiiii") (8 - 1))
    ∧ ∃ s2 len2, reduce_repeated_letters (ofList (cp "ouiiiiii")) 8 = some (s2, len2)
        ∧ len2 = (collapse_runs 3 (toList (ofList (cp "ouiiiiii")) 8)).length
        ∧ toList s2 len2 = collapse_runs 3 (toList (ofList (cp "ouiiiiii")) 8) :=
  ⟨by decide, (reduce_repeated_letters_correct (ofList (cp "ouiiiiii")) 8 (by decide)).1⟩

/-- C6 (the code at the failing input). A run of two at the start of the buffer is
not collapsed by the reducer for runs of two: `dediacritic("oon")` is `"oon"`, where
collapsing every run of two or more gives `"on"`; the runs the claim names as
examples are collapsed (`"sallle"` gives `"sale"`, `"noon"` gives `"non"`). -/
theorem dediacritic_keeps_leading_pair (junk : Buf) :
    dediacritic_dedoubler junk (cp "oon") = some (cp "oon")
    ∧ collapse_runs 2 (cp "oon") = cp "on"
    ∧ (reduce_repeated_letters_2 (ofList (cp "aab")) 3).map (fun r => toList r.1 r.2)
        = some (cp "aab")
    ∧ dediacritic_dedoubler junk (cp "sallle") = some (cp "sale")
    ∧ dediacritic_dedoubler junk (cp "noon") = some (cp "non") := by
  refine ⟨?_, by decide, by decide, ?_, ?_⟩ <;>
    rw [dediacritic_dedoubler_eq] <;> decide

/-- C7. The function `dediacritic` is the reducer for runs of two applied to the
character-wise fold of the input (whatever the fresh buffer held); the fold keeps
the length, sends `é è ê ë` to `e`, `â à ä` to `a`, `î ï` to `i`, `ô ö` to `o`,
`ù û ü` to `u` and keeps every other character (so `ç` and the uppercase accented
letters); the fold comes first, so `"étéééé"` gives `"ete"`. -/
theorem dediacritic_is_fold_then_reduce (junk : Buf) (input : List Nat) :
    dediacritic_dedoubler junk input
      = (reduce_repeated_letters_2 (ofList (input.map fold_char)) input.length).map
          (fun r => toList r.1 r.2)
    ∧ (input.map fold_char).length = input.length
    ∧ (∀ c ∈ cp "éèêë", fold_char c = 101)
    ∧ (∀ c ∈ cp "âàä", fold_char c = 97)
    ∧ (∀ c ∈ cp "îï", fold_char c = 105)
    ∧ (∀ c ∈ cp "ôö", fold_char c = 111)
    ∧ (∀ c ∈ cp "ùûü", fold_char c = 117)
    ∧ (∀ c, c ∉ cp "éèêëâàäîïôöùûü" → fold_char c = c)
    ∧ (∀ c ∈ cp "çÉÈÊËÂÀÄÎÏÔÖÙÛÜ", fold_char c = c)
    ∧ dediacritic_dedoubler junk (cp "étéééé") = some (cp "ete") := by
  refine ⟨dediacritic_dedoubler_eq junk input, by simp, by decide, by decide, by decide,
    by decide, by decide, ?_, by decide, ?_⟩
  · intro c hc
    have e : cp "éèêëâàäîïôöùûü"
        = [233, 232, 234, 235, 226, 224, 228, 238, 239, 244, 246, 249, 251, 252] := by
      decide
    rw [e] at hc
    simp only [List.mem_cons, List.mem_singleton, List.not_mem_nil, or_false, not_or] at hc
    unfold fold_char
    split_ifs <;> first | rfl | omega
  · rw [dediacritic_dedoubler_eq]; decide

/-- C9. Per-character rewriting: on an input without `-`, `.` and `·`,
`replace_chars` writes the concatenation, in input order, of the images of the
characters under the table (`rewrite_char`), and returns its length; `normalize`
turns `«bonjour»` into `"bonjour"`, `œuvre` into `oeuvre` and `(ré)élire` into
`réélire`. -/
theorem per_character_rewriting (alpha : Nat → Bool) (new : Buf) (input : List Nat)
    (h : ∀ c ∈ input, c ≠ 45 ∧ c ≠ 46 ∧ c ≠ 183) :
    (∃ new2, replace_chars alpha (ofList input) new input.length
          = some (new2, (input.flatMap rewrite_char).length)
        ∧ toList new2 (input.flatMap rewrite_char).length = input.flatMap rewrite_char)
    ∧ normalize alpha new (cp "«bonjour»") = some (34 :: cp "bonjour" ++ [34])
    ∧ normalize alpha new (cp "œuvre") = some (cp "oeuvre")
    ∧ normalize alpha new (cp "(ré)élire") = some (cp "réélire") := by
  refine ⟨?_, normalize_of_plain_check alpha new _ _ (by decide),
    normalize_of_plain_check alpha new _ _ (by decide),
    normalize_of_plain_check alpha new _ _ (by decide)⟩
  have hout := replace_out_no_sep alpha input h input.length 0 (by omega)
  rw [List.drop_zero] at hout
  refine ⟨write_list new 0 (input.flatMap rewrite_char), ?_, ?_⟩
  · rw [replace_chars_eq, hout]; rfl
  · rw [toList_eq_seg, write_list_seg]

theorem per_character_rewriting_witness :
    (∀ c ∈ cp "«œuvre» (æ)", c ≠ 45 ∧ c ≠ 46 ∧ c ≠ 183)
    ∧ ∃ new2, replace_chars latin_alpha (ofList (cp "«œuvre» (æ)")) (fun _ => 0)
          (cp "«œuvre» (æ)").length
          = some (new2, ((cp "«œuvre» (æ)").flatMap rewrite_char).length)
        ∧ toList new2 ((cp "«œuvre» (æ)").flatMap rewrite_char).length
          = (cp "«œuvre» (æ)").flatMap rewrite_char :=
  ⟨by decide,
   (per_character_rewriting latin_alpha (fun _ => 0) (cp "«œuvre» (æ)") (by decide)).1⟩

/-- C10 (counterexample). A text of `2^30` ligatures `œ` has a length an `int` holds,
and `replace_chars` writes two characters for each: the count it would return is
`2^31`, which is more than `INT_MAX`, so the `int` counter `y` overflows and
`normalize` has no defined result, hence none of length at most `2 * n`. (On `2^31`
letters `(int)len` is negative, the loop does not run, and `normalize` returns the
empty text.) -/
theorem growth_overflows_int :
    (List.replicate 1073741824 339).length = 1073741824
    ∧ int_of_ssize 1073741824 = 1073741824
    ∧ (replace_chars latin_alpha (ofList (List.replicate 1073741824 339)) (fun _ => 0)
          1073741824).map (fun r => r.2) = some 2147483648
    ∧ INT_MAX < 2147483648
    ∧ normalize latin_alpha (fun _ => 0) (List.replicate 1073741824 339) = none
    ∧ ¬(∃ r, normalize latin_alpha (fun _ => 0) (List.replicate 1073741824 339) = some r
          ∧ r.length ≤ 2 * 1073741824)
    ∧ int_of_ssize 2147483648 = -2147483648
    ∧ normalize latin_alpha (fun _ => 0) (List.replicate 2147483648 97) = some [] := by
  have hnone : normalize latin_alpha (fun _ => 0) (List.replicate 1073741824 339) = none :=
    normalize_of_ligatures latin_alpha (fun _ => 0) 1073741824 (by decide) (by decide)
  refine ⟨List.length_replicate _ _, by decide, ?_, by decide, hnone, ?_, by decide, ?_⟩
  · rw [replace_chars_of_ligatures]
  · rintro ⟨r, hr, _⟩
    rw [hnone] at hr
    cases hr
  · exact normalize_of_negative_int latin_alpha (fun _ => 0) _
      (by rw [List.length_replicate]; decide)

/-- C10 (amended). Bounded growth on texts of fewer than `2^30` characters: the
conversion `(int)len` keeps the length `n`; `replace_chars` returns, and the length
`y` it returns is at most `2 * n`, hence below the `2 * (n + 2)` slots `normalize`
allocates and below `INT_MAX`; the slots from index `y` on are left as they were (the
stores are at the indices below `y`); `normalize` returns a text of length at most
`2 * n`. -/
theorem bounded_growth (alpha : Nat → Bool) (junk : Buf) (input : List Nat)
    (hn : input.length < 1073741824) :
    int_of_ssize input.length = input.length
    ∧ (∃ new2 y, replace_chars alpha (ofList input) junk input.length = some (new2, y)
        ∧ y ≤ 2 * input.length ∧ y < 2 * (input.length + 2) ∧ y < INT_MAX
        ∧ ∀ k, y ≤ k → new2 k = junk k)
    ∧ ∃ r, normalize alpha junk input = some r ∧ r.length ≤ 2 * input.length := by
  obtain ⟨out, ho, hl⟩ := replace_out_total alpha (ofList input) input.length
    (ofList_length input) input.length 0 (by omega) (by omega)
  have h1 : input.length < INT_MAX := by unfold INT_MAX; omega
  have h2 : out.length < INT_MAX := by unfold INT_MAX; omega
  refine ⟨int_of_ssize_of_le _ (le_of_lt h1), ?_, ?_⟩
  · exact ⟨write_list junk 0 out, out.length, by rw [replace_chars_eq, ho]; rfl, by omega,
      by omega, h2, fun k hk => write_list_ge junk 0 out k (by omega)⟩
  · refine ⟨_, normalize_eq alpha junk input out ho h1 h2, ?_⟩
    have := collapse_runs_length_le (out ++ [junk out.length])
    simp only [List.length_dropLast, List.length_append, List.length_singleton] at this ⊢
    omega

theorem bounded_growth_witness :
    (cp "«œuvre»-æ").length < 1073741824
    ∧ ∃ r, normalize latin_alpha (fun _ => 0) (cp "«œuvre»-æ") = some r
        ∧ r.length ≤ 2 * (cp "«œuvre»-æ").length :=
  ⟨by decide, (bounded_growth latin_alpha (fun _ => 0) (cp "«œuvre»-æ") (by decide)).2.2⟩

/-- C11 (the code at the failing input). The reducer for runs of three reads the
slot `s[len]`: two buffers that agree on the indices `0..3` and differ at index 4
give different results for `len = 4`, and `normalize("ouii")` is `"ou"` when the slot
`replace_chars` left unwritten holds `i`, and `"ouii"` otherwise. -/
theorem reducer_reads_slot_after_text :
    (∀ k, k < 4 → ofList (cp "ouii" ++ [105]) k = ofList (cp "ouii") k)
    ∧ (reduce_repeated_letters (ofList (cp "ouii")) 4).map (fun r => toList r.1 r.2)
        = some (cp "ouii")
    ∧ (reduce_repeated_letters (ofList (cp "ouii" ++ [105])) 4).map
          (fun r => toList r.1 r.2) = some (cp "ou")
    ∧ (∀ (alpha : Nat → Bool) (junk : Buf), junk 4 = 105 →
        normalize alpha junk (cp "ouii") = some (cp "ou"))
    ∧ (∀ (alpha : Nat → Bool) (junk : Buf), junk 4 ≠ 105 →
        normalize alpha junk (cp "ouii") = some (cp "ouii")) := by
  have hout : ∀ alpha : Nat → Bool,
      replace_out alpha (ofList (cp "ouii")) (cp "ouii").length (cp "ouii").length 0
        = some (cp "ouii") := by
    intro alpha
    have := replace_out_no_sep alpha (cp "ouii") (by decide) (cp "ouii").length 0 (by omega)
    rw [this]
    decide
  refine ⟨by decide, by decide, by decide, ?_, ?_⟩
  · intro alpha junk hj
    rw [normalize_eq alpha junk _ _ (hout alpha) (by decide) (by decide)]
    have e : (cp "ouii").length = 4 := by decide
    rw [e, hj]
    decide
  · intro alpha junk hj
    rw [normalize_eq alpha junk _ _ (hout alpha) (by decide) (by decide),
      collapse_runs_snoc 3 _ _ (fun c hc => by
        have e : (cp "ouii").getLast? = some 105 := by decide
        rw [e] at hc
        cases hc
        have e2 : (cp "ouii").length = 4 := by decide
        rw [e2]
        exact fun h => hj h.symm)]
    rw [List.dropLast_concat]
    decide

/-- C12 (counterexample). In `"mot-rices"` the literal `rice` matches after the
hyphen and the next character `s` is a word character that is not the separator, yet
`match_suff` matches (up to index 9, through the continuation `s`), and
`replace_chars` writes `"mot·rices"`. -/
theorem wordchar_after_literal_can_match :
    literal_eq (ofList (cp "mot-rices")) 4 (cp "rice") = true
    ∧ iswordch latin_alpha (ofList (cp "mot-rices") (4 + (cp "rice").length)) = true
    ∧ ofList (cp "mot-rices") (4 + (cp "rice").length) ≠ 45
    ∧ match_suff latin_alpha (ofList (cp "mot-rices")) (.mk (cp "rice") suff_plural_nonbinary)
        4 6 45 = some 9
    ∧ match_suff latin_alpha (ofList (cp "mot-rices")) (.mk (cp "rice") suff_plural_nonbinary)
        4 6 45 ≠ none
    ∧ (replace_chars latin_alpha (ofList (cp "mot-rices")) (fun _ => 0) 9).map
        (fun r => toList r.1 r.2) = some (cp "mot·rices") := by
  decide

/-- C12 (amended). Word character after the literal: if the literal matches, leaves
room (`pattern.length < max`) and the next character is a word character that is not
the separator, `match_suff` returns what the continuations give from that same
character on (no separator in between): the end of one of them that matches there,
and no match when none of them does. -/
theorem wordchar_after_literal (alpha : Nat → Bool) (s : Buf) (text : List Nat)
    (opts : List suffix) (p max sep : Nat) (hmax : text.length < max)
    (hlit : literal_eq s p text = true)
    (hw : iswordch alpha (s (p + text.length)) = true)
    (hs : s (p + text.length) ≠ sep) :
    match_suff alpha s (.mk text opts) p max sep
        = match_opts alpha s opts (p + text.length) (max - text.length) sep none
    ∧ ((∀ o ∈ opts, match_suff alpha s o (p + text.length) (max - text.length) sep = none)
        → match_suff alpha s (.mk text opts) p max sep = none)
    ∧ (∀ x, match_suff alpha s (.mk text opts) p max sep = some x
        → ∃ o ∈ opts, match_suff alpha s o (p + text.length) (max - text.length) sep
            = some x) := by
  have h := match_suff_after_literal alpha s text opts p max sep hmax hlit
  simp only [hw, hs, Bool.not_true, Bool.false_and, Bool.false_eq_true, if_false] at h
  refine ⟨h, ?_, ?_⟩
  · intro hno
    rw [h, match_opts_of_none _ _ _ _ _ _ _ hno]
  · intro x hx
    rw [h] at hx
    exact match_opts_some _ _ _ _ _ _ _ hx

theorem wordchar_after_literal_witness :
    match_suff latin_alpha (ofList (cp "mot-ricette")) (.mk (cp "rice") suff_plural_nonbinary)
        4 8 45 = none
    ∧ match_suff latin_alpha (ofList (cp "mot-rices")) (.mk (cp "rice") suff_plural_nonbinary)
        4 6 45
      = match_opts latin_alpha (ofList (cp "mot-rices")) suff_plural_nonbinary
          (4 + (cp "rice").length) (6 - (cp "rice").length) 45 none :=
  ⟨(wordchar_after_literal latin_alpha (ofList (cp "mot-ricette")) (cp "rice")
      suff_plural_nonbinary 4 8 45 (by decide) (by decide) (by decide) (by decide)).2.1
      (by decide),
   (wordchar_after_literal latin_alpha (ofList (cp "mot-rices")) (cp "rice")
      suff_plural_nonbinary 4 6 45 (by decide) (by decide) (by decide) (by decide)).1⟩

/-- C13 (counterexample). In `"mot-e-vous"` the literal `e` matches after the first
hyphen, the next character is the separator, the character after it (`v`) is a word
character and no continuation matches there, yet `match_suff` matches and ends right
after the literal (index 5); `replace_chars` writes `"mot·e-vous"`. -/
theorem separator_then_wordchar_still_matches :
    literal_eq (ofList (cp "mot-e-vous")) 4 (cp "e") = true
    ∧ ofList (cp "mot-e-vous") (4 + (cp "e").length) = 45
    ∧ iswordch latin_alpha (ofList (cp "mot-e-vous") (4 + (cp "e").length + 1)) = true
    ∧ (∀ o ∈ suff_plural_nonbinary,
        match_suff latin_alpha (ofList (cp "mot-e-vous")) o (4 + ((cp "e").length + 1))
          (7 - ((cp "e").length + 1)) 45 = none)
    ∧ match_suff latin_alpha (ofList (cp "mot-e-vous")) (.mk (cp "e") suff_plural_nonbinary)
        4 7 45 = some 5
    ∧ match_suff latin_alpha (ofList (cp "mot-e-vous")) (.mk (cp "e") suff_plural_nonbinary)
        4 7 45 ≠ none
    ∧ (replace_chars latin_alpha (ofList (cp "mot-e-vous")) (fun _ => 0) 10).map
        (fun r => toList r.1 r.2) = some (cp "mot·e-vous") := by
  decide

/-- C13 (amended). Separator followed by a word character: if the literal matches,
leaves room, the next character is the separator, the character after the separator
is a word character and no continuation matches after the separator, `match_suff`
still matches, and the end it returns is the position right after the literal. -/
theorem separator_then_wordchar (alpha : Nat → Bool) (s : Buf) (text : List Nat)
    (opts : List suffix) (p max sep : Nat) (hmax : text.length < max)
    (hlit : literal_eq s p text = true) (hsep : s (p + text.length) = sep)
    (_hw : iswordch alpha (s (p + text.length + 1)) = true)
    (hno : ∀ o ∈ opts,
      match_suff alpha s o (p + (text.length + 1)) (max - (text.length + 1)) sep = none) :
    match_suff alpha s (.mk text opts) p max sep = some (p + text.length) :=
  match_suff_sep_no_option alpha s text opts p max sep hmax hlit hsep hno

theorem separator_then_wordchar_witness :
    match_suff latin_alpha (ofList (cp "mot-e-vous")) (.mk (cp "e") suff_plural_nonbinary)
        4 7 45 = some (4 + (cp "e").length) :=
  separator_then_wordchar latin_alpha (ofList (cp "mot-e-vous")) (cp "e")
    suff_plural_nonbinary 4 7 45 (by decide) (by decide) (by decide) (by decide) (by decide)

/-- C14 (counterexample). In `"mot-e-"` the literal `e` matches after the first
hyphen, the next character is the separator, the input ends after it and no
continuation matches, and the end `match_suff` returns is index 5, right after the
literal, not index 6 past the separator; `replace_chars` keeps the last hyphen. -/
theorem separator_end_is_before_separator :
    literal_eq (ofList (cp "mot-e-")) 4 (cp "e") = true
    ∧ ofList (cp "mot-e-") (4 + (cp "e").length) = 45
    ∧ iswordch latin_alpha (ofList (cp "mot-e-") (4 + (cp "e").length + 1)) = false
    ∧ (∀ o ∈ suff_plural_nonbinary,
        match_suff latin_alpha (ofList (cp "mot-e-")) o (4 + ((cp "e").length + 1))
          (3 - ((cp "e").length + 1)) 45 = none)
    ∧ match_suff latin_alpha (ofList (cp "mot-e-")) (.mk (cp "e") suff_plural_nonbinary)
        4 3 45 = some 5
    ∧ match_suff latin_alpha (ofList (cp "mot-e-")) (.mk (cp "e") suff_plural_nonbinary)
        4 3 45 ≠ some (4 + (cp "e").length + 1)
    ∧ (replace_chars latin_alpha (ofList (cp "mot-e-")) (fun _ => 0) 6).map
        (fun r => toList r.1 r.2) = some (cp "mot·e-") := by
  decide

/-- C14 (amended). Separator with no continuation: if the literal matches, leaves
room, the next character is the separator, the character after the separator is not
a word character and no continuation matches after the separator, `match_suff`
matches and the end it returns is the position right after the literal (the
position of the separator, which is not consumed). -/
theorem separator_without_continuation (alpha : Nat → Bool) (s : Buf) (text : List Nat)
    (opts : List suffix) (p max sep : Nat) (hmax : text.length < max)
    (hlit : literal_eq s p text = true) (hsep : s (p + text.length) = sep)
    (_hnw : iswordch alpha (s (p + text.length + 1)) = false)
    (hno : ∀ o ∈ opts,
      match_suff alpha s o (p + (text.length + 1)) (max - (text.length + 1)) sep = none) :
    match_suff alpha s (.mk text opts) p max sep = some (p + text.length)
    ∧ match_suff alpha s (.mk text opts) p max sep ≠ some (p + text.length + 1) := by
  have h := match_suff_sep_no_option alpha s text opts p max sep hmax hlit hsep hno
  refine ⟨h, ?_⟩
  rw [h]
  simp

theorem separator_without_continuation_witness :
    match_suff latin_alpha (ofList (cp "mot-e-")) (.mk (cp "e") suff_plural_nonbinary)
        4 3 45 = some (4 + (cp "e").length) :=
  (separator_without_continuation latin_alpha (ofList (cp "mot-e-")) (cp "e")
    suff_plural_nonbinary 4 3 45 (by decide) (by decide) (by decide) (by decide)
    (by decide)).1

/-- C15. Boundary cases of the matcher: no match when `max < pattern.length` or when
a character at the position differs from the literal; and when the literal matches
and either fills the remaining length (`max = pattern.length`) or is followed by a
character that is neither a word character nor the separator, the match succeeds
and ends right after the literal, whatever the continuations are. -/
theorem matcher_boundary (alpha : Nat → Bool) (s : Buf) (text : List Nat)
    (opts : List suffix) (p max sep : Nat) :
    (max < text.length → match_suff alpha s (.mk text opts) p max sep = none)
    ∧ ((∃ j, ∃ hj : j < text.length, s (p + j) ≠ text[j])
        → match_suff alpha s (.mk text opts) p max sep = none)
    ∧ (literal_eq s p text = true → max = text.length
        → ∀ opts2, match_suff alpha s (.mk text opts2) p max sep = some (p + text.length))
    ∧ (literal_eq s p text = true → text.length < max
        → iswordch alpha (s (p + text.length)) = false → s (p + text.length) ≠ sep
        → ∀ opts2, match_suff alpha s (.mk text opts2) p max sep
            = some (p + text.length)) := by
  refine ⟨?_, ?_, ?_, ?_⟩
  · intro h
    simp only [match_suff, h, if_true]
  · intro h
    have hl := literal_eq_false s p text h
    simp only [match_suff, hl]
    split <;> simp
  · intro hlit hmax opts2
    have h1 : ¬ max < text.length := by omega
    have h2 : max - text.length = 0 := by omega
    simp only [match_suff, h1, hlit, h2, if_false, if_true, Bool.not_true,
      Bool.false_eq_true]
  · intro hlit hmax hw hs opts2
    rw [match_suff_after_literal alpha s text opts2 p max sep hmax hlit]
    simp [hw, hs]

/-- C16. Continuations chain only across the separator that introduced the match:
for each catalog entry `f` and distinct `sep1`, `sep2` among `-` and `.`,
`replace_chars` turns `"mot" + sep1 + f.text + sep2 + "s"` into
`"mot·" + f.text + sep2 + "s"`; and for `sep1` among `-` and `.` it leaves
`"mot" + sep1 + f.text + "·s"` unchanged. -/
theorem chain_needs_same_separator (alpha : Nat → Bool) (new : Buf) (h : AlphaBasic alpha) :
    (∀ f ∈ suff_feminine, ∀ q ∈ [(45, 46), (46, 45)],
        replace_text alpha new (cp "mot" ++ q.1 :: f.str ++ q.2 :: [115])
          = some (cp "mot·" ++ f.str ++ q.2 :: [115]))
    ∧ (∀ f ∈ suff_feminine, ∀ sep1 ∈ [45, 46],
        replace_text alpha new (cp "mot" ++ sep1 :: f.str ++ [183, 115])
          = some (cp "mot" ++ sep1 :: f.str ++ [183, 115])) :=
  ⟨fun f hf q hq => replace_text_of_rewrite_check alpha new h _ _ (c16_check_other f hf q hq),
   fun f hf sep1 hs =>
     replace_text_of_rewrite_check alpha new h _ _ (c16_check_middot f hf sep1 hs)⟩

theorem chain_needs_same_separator_witness :
    AlphaBasic latin_alpha
    ∧ replace_text latin_alpha (fun _ => 0) (cp "mot-rice.s") = some (cp "mot·rice.s")
    ∧ replace_text latin_alpha (fun _ => 0) (cp "mot.rice·s") = some (cp "mot.rice·s") :=
  ⟨latin_alpha_basic,
   (chain_needs_same_separator latin_alpha (fun _ => 0) latin_alpha_basic).1
     (.mk (cp "rice") suff_plural_nonbinary) (by simp [suff_feminine]) (45, 46) (by simp),
   (chain_needs_same_separator latin_alpha (fun _ => 0) latin_alpha_basic).2
     (.mk (cp "rice") suff_plural_nonbinary) (by simp [suff_feminine]) 46 (by simp)⟩

/-- C17. The matcher is total: in the catalog every feminine entry continues with
the plural `s` or the nonbinary `x`, `x` continues with `s`, and `s` with nothing, so
the chains have three patterns at most; `match_suff` (a total function) returns on
every input within three nested calls for a catalog entry, and within `depth` nested
calls for any pattern; each iteration of the loop of `replace_chars` moves the input
index forward, and `replace_chars` returns on every buffer within `len` iterations. -/
theorem matcher_and_scan_terminate (alpha : Nat → Bool) (s : Buf) :
    (∀ f ∈ suff_feminine, f.opts = [suff_plural_s, suff_nonbinary_s] ∧ f.depth = 3)
    ∧ suff_nonbinary_s.opts = [suff_plural_s] ∧ suff_plural_s.opts = []
    ∧ (∀ f ∈ suff_feminine, ∀ p max sep,
        match_suff_within alpha s 3 f p max sep = some (match_suff alpha s f p max sep))
    ∧ (∀ (f : suffix) (p max sep : Nat),
        match_suff_within alpha s f.depth f p max sep
          = some (match_suff alpha s f p max sep))
    ∧ (∀ (len i : Nat) (new : Buf) (y : Nat),
        i < (replace_body alpha s len i new y).1 + 1)
    ∧ (∀ (len : Nat) (new : Buf), ∃ r, replace_chars alpha s new len = some r) := by
  have hdepth : ∀ f ∈ suff_feminine, f.depth = 3 := by decide
  refine ⟨?_, rfl, rfl, ?_, ?_, ?_, ?_⟩
  · intro f hf
    refine ⟨?_, hdepth f hf⟩
    revert f
    simp [suff_feminine, suffix.opts, suff_plural_nonbinary]
  · intro f hf p max sep
    exact match_suff_within_eq alpha s f 3 p max sep (le_of_eq (hdepth f hf))
  · intro f p max sep
    exact match_suff_within_eq alpha s f f.depth p max sep (le_refl _)
  · intro len i new y
    rw [replace_body_eq]
    have := body_out_advance alpha s len i
    simp only
    omega
  · intro len new
    obtain ⟨out, ho⟩ := replace_out_some alpha s len len 0 (by omega)
    exact ⟨_, by rw [replace_chars_eq, ho]; rfl⟩

/-- C18. The detected span stays inside the input: at an index `i < n` of a text of
length `n` that holds `-`, `.` or `·`, `is_incl_suff(&s[i], n - i, s[i])` is 0 or a
value `k` with `2 ≤ k ≤ n - i`; and neither it nor the inner loop of
`replace_chars` that copies the span depends on a slot beyond index `n`: on every
buffer that agrees with the text and its terminator on the indices `0..n` they give
the same result. -/
theorem span_stays_inside (alpha : Nat → Bool) (input : List Nat) (i : Nat)
    (hi : i < input.length)
    (hc : ofList input i = 45 ∨ ofList input i = 46 ∨ ofList input i = 183) :
    (is_incl_suff alpha (ofList input) i (input.length - i) (ofList input i) = 0
      ∨ (2 ≤ is_incl_suff alpha (ofList input) i (input.length - i) (ofList input i)
        ∧ is_incl_suff alpha (ofList input) i (input.length - i) (ofList input i)
            ≤ input.length - i))
    ∧ ∀ t : Buf, (∀ j, j ≤ input.length → t j = ofList input j) →
        is_incl_suff alpha t i (input.length - i) (t i)
          = is_incl_suff alpha (ofList input) i (input.length - i) (ofList input i)
        ∧ ∀ (new : Buf) (y : Nat),
          reemit t (is_incl_suff alpha t i (input.length - i) (t i)) i new y
            = reemit (ofList input)
                (is_incl_suff alpha (ofList input) i (input.length - i) (ofList input i))
                i new y := by
  have hle := is_incl_suff_le alpha (ofList input) input.length i (ofList input i)
    (ofList_length input) hi (by omega)
  constructor
  · by_cases h0 : is_incl_suff alpha (ofList input) i (input.length - i) (ofList input i) = 0
    · exact Or.inl h0
    · exact Or.inr ⟨is_incl_suff_ge_two alpha _ _ _ _ h0, hle⟩
  · intro t ht
    have e : is_incl_suff alpha t i (input.length - i) (t i)
        = is_incl_suff alpha (ofList input) i (input.length - i) (ofList input i) := by
      rw [ht i (by omega)]
      exact is_incl_suff_loop_window alpha t (ofList input) i (input.length - i) _
        (fun j a b => ht j (by omega)) suff_feminine
    refine ⟨e, fun new y => ?_⟩
    rw [e]
    exact reemit_window t (ofList input) _ i new y (fun j a b => ht j (by omega))

theorem span_stays_inside_witness :
    (is_incl_suff latin_alpha (ofList (cp "auteur-rice-x-s")) 6
        ((cp "auteur-rice-x-s").length - 6) (ofList (cp "auteur-rice-x-s") 6) = 0
      ∨ (2 ≤ is_incl_suff latin_alpha (ofList (cp "auteur-rice-x-s")) 6
            ((cp "auteur-rice-x-s").length - 6) (ofList (cp "auteur-rice-x-s") 6)
        ∧ is_incl_suff latin_alpha (ofList (cp "auteur-rice-x-s")) 6
            ((cp "auteur-rice-x-s").length - 6) (ofList (cp "auteur-rice-x-s") 6)
            ≤ (cp "auteur-rice-x-s").length - 6))
    ∧ is_incl_suff latin_alpha (ofList (cp "auteur-rice-x-s")) 6 9 45 = 9 :=
  ⟨(span_stays_inside latin_alpha (cp "auteur-rice-x-s") 6 (by decide)
      (Or.inl (by decide))).1, by decide⟩

/-- C19. Catalog order does not affect the result: for every buffer, position,
length and separator among `-`, `.`, `·`, at most one of the 17 feminine entries
matches under `match_suff`, so the loop of `is_incl_suff` returns the same span on
every permutation of the catalog. -/
theorem catalog_order_irrelevant (alpha : Nat → Bool) (h : AlphaBasic alpha) (s : Buf)
    (p len sep : Nat) (hsep : sep = 45 ∨ sep = 46 ∨ sep = 183) :
    suff_feminine.length = 17
    ∧ (∀ f ∈ suff_feminine, ∀ g ∈ suff_feminine, ∀ x y,
        match_suff alpha s f p len sep = some x → match_suff alpha s g p len sep = some y →
        f = g)
    ∧ (∀ l : List suffix, l.Perm suff_feminine →
        is_incl_suff_loop alpha s p len sep l = is_incl_suff alpha s p len sep) := by
  refine ⟨rfl, fun f hf g hg x y hx hy =>
    catalog_match_unique alpha h s p len sep hsep f g hf hg x y hx hy, ?_⟩
  intro l hl
  unfold is_incl_suff
  have huniq : ∀ l2 : List suffix, (∀ f ∈ l2, f ∈ suff_feminine) →
      ∀ f ∈ l2, ∀ g ∈ l2, ∀ x y, match_suff alpha s f (p + 1) len sep = some x →
        match_suff alpha s g (p + 1) len sep = some y → f = g :=
    fun l2 hsub f hf g hg x y hx hy =>
      catalog_match_unique alpha h s (p + 1) len sep hsep f g (hsub f hf) (hsub g hg) x y hx hy
  by_cases hex : ∃ f ∈ suff_feminine, ∃ x, match_suff alpha s f (p + 1) len sep = some x
  · obtain ⟨f, hf, x, hx⟩ := hex
    rw [is_incl_suff_loop_of_match alpha s p len sep l
        (huniq l (fun g hg => hl.mem_iff.1 hg)) f (hl.mem_iff.2 hf) x hx,
      is_incl_suff_loop_of_match alpha s p len sep suff_feminine
        (huniq _ (fun g hg => hg)) f hf x hx]
  · have hnone : ∀ f ∈ suff_feminine, match_suff alpha s f (p + 1) len sep = none := by
      intro f hf
      cases hm : match_suff alpha s f (p + 1) len sep with
      | none => rfl
      | some x => exact (hex ⟨f, hf, x, hm⟩).elim
    rw [is_incl_suff_loop_of_none alpha s p len sep l
        (fun f hf => hnone f (hl.mem_iff.1 hf)),
      is_incl_suff_loop_of_none alpha s p len sep suff_feminine hnone]

theorem catalog_order_irrelevant_witness :
    AlphaBasic latin_alpha
    ∧ is_incl_suff_loop latin_alpha (ofList (cp "mot-esse")) 3 5 45 suff_feminine.reverse
        = is_incl_suff latin_alpha (ofList (cp "mot-esse")) 3 5 45 :=
  ⟨latin_alpha_basic,
   (catalog_order_irrelevant latin_alpha latin_alpha_basic (ofList (cp "mot-esse")) 3 5 45
      (Or.inl rfl)).2.2 suff_feminine.reverse (List.reverse_perm _)⟩

/-- C20. The output of `replace_chars` is free of the rewritten classes: on every
buffer and length it returns, and the text it wrote holds none of
`( ) [ ] { } ‘ ’` back quote `« » “ ” — – œ æ`; the characters copied from a
detected span are catalog letters. -/
theorem output_free_of_rewritten (alpha : Nat → Bool) (s new : Buf) (len : Nat) :
    (∃ new2 y, replace_chars alpha s new len = some (new2, y)
        ∧ ∀ c ∈ toList new2 y, rewritten c = false)
    ∧ (∀ i, (s i = 45 ∨ s i = 46 ∨ s i = 183) →
        ∀ c ∈ reemit_out s (is_incl_suff alpha s i (len - i) (s i)) i,
          catalog_letter c = true ∧ rewritten c = false)
    ∧ (∀ c ∈ cp "()[]‘’«»“”—–œæ" ++ [123, 125, 96], rewritten c = true) := by
  refine ⟨?_, ?_, by decide⟩
  · obtain ⟨out, ho⟩ := replace_out_some alpha s len len 0 (by omega)
    refine ⟨write_list new 0 out, out.length, by rw [replace_chars_eq, ho]; rfl, ?_⟩
    rw [toList_eq_seg, write_list_seg]
    exact replace_out_not_rewritten alpha s len len 0 out ho
  · intro i hc c hmem
    have := reemit_out_catalog alpha s len i hc c hmem
    exact ⟨this, catalog_letter_not_rewritten c this⟩

end Commecy
